import Mathlib

/-!
Verification of the typo-tolerant Express router's core matching engine.

The embedding models, from `src/unnamed/part_000` (the advanced router):
* the Levenshtein edit distance used by the matcher (the `levenshtein` npm
  package computes the standard character-level edit distance);
* path segmentation (`path.split("/").filter(Boolean)`);
* the exact structural match of a request against a parameterized template
  (`pathToRegexp(route.path, keys)` built with default options, hence a
  case-insensitive regexp demanding one chunk per template segment with an
  optional trailing slash; modelled for segment-structured templates);
* the segment-by-segment fuzzy matcher and `findBestMatch` itself.
-/

/-! ### Levenshtein edit distance (model of the `levenshtein` npm package) -/

/-- Fuel-indexed Levenshtein recursion; with enough fuel this is the standard
minimum-edit count between two character lists. -/
def levFuel : Nat → List Char → List Char → Nat
  | 0, _, _ => 0
  | _ + 1, [], ys => ys.length
  | _ + 1, _ :: xs, [] => xs.length + 1
  | fuel + 1, x :: xs, y :: ys =>
      min (levFuel fuel xs (y :: ys) + 1)
        (min (levFuel fuel (x :: xs) ys + 1)
          (levFuel fuel xs ys + (if x = y then 0 else 1)))

/-- Levenshtein edit distance between two character lists. -/
def lev (xs ys : List Char) : Nat :=
  levFuel (xs.length + ys.length + 1) xs ys

theorem levFuel_congr : ∀ f g xs ys, xs.length + ys.length < f →
    xs.length + ys.length < g → levFuel f xs ys = levFuel g xs ys := by
  intro f
  induction f with
  | zero => intro g xs ys h _; omega
  | succ f ih =>
    intro g xs ys hf hg
    cases g with
    | zero => omega
    | succ g =>
      cases xs with
      | nil => rfl
      | cons x xs =>
        cases ys with
        | nil => rfl
        | cons y ys =>
          simp only [List.length_cons] at hf hg
          simp only [levFuel]
          rw [ih g xs (y :: ys) (by simp; omega) (by simp; omega),
            ih g (x :: xs) ys (by simp; omega) (by simp; omega),
            ih g xs ys (by omega) (by omega)]

theorem lev_nil_left (ys : List Char) : lev [] ys = ys.length := rfl

theorem lev_cons_nil (x : Char) (xs : List Char) : lev (x :: xs) [] = xs.length + 1 := rfl

theorem lev_nil_right (xs : List Char) : lev xs [] = xs.length := by
  cases xs with
  | nil => rfl
  | cons x xs => rfl

theorem lev_cons_cons (x y : Char) (xs ys : List Char) :
    lev (x :: xs) (y :: ys) =
      min (lev xs (y :: ys) + 1)
        (min (lev (x :: xs) ys + 1) (lev xs ys + (if x = y then 0 else 1))) := by
  show levFuel ((x :: xs).length + (y :: ys).length + 1) (x :: xs) (y :: ys) = _
  have h1 : (x :: xs).length + (y :: ys).length + 1 =
      (xs.length + ys.length + 2) + 1 := by
    simp only [List.length_cons]; omega
  rw [h1]
  simp only [levFuel]
  rw [levFuel_congr (xs.length + ys.length + 2) (xs.length + (y :: ys).length + 1) xs (y :: ys)
      (by simp only [List.length_cons]; omega) (by simp only [List.length_cons]; omega)]
  rw [levFuel_congr (xs.length + ys.length + 2) ((x :: xs).length + ys.length + 1) (x :: xs) ys
      (by simp only [List.length_cons]; omega) (by simp only [List.length_cons]; omega)]
  rw [levFuel_congr (xs.length + ys.length + 2) (xs.length + ys.length + 1) xs ys
      (by omega) (by omega)]
  rfl

theorem lev_self (xs : List Char) : lev xs xs = 0 := by
  induction xs with
  | nil => rfl
  | cons x xs ih => rw [lev_cons_cons, ih]; simp

theorem eq_of_lev_eq_zero : ∀ {xs ys : List Char}, lev xs ys = 0 → xs = ys := by
  intro xs
  induction xs with
  | nil =>
    intro ys h
    cases ys with
    | nil => rfl
    | cons y ys =>
      rw [lev_nil_left] at h
      exact absurd h (by simp)
  | cons x xs ih =>
    intro ys h
    cases ys with
    | nil =>
      rw [lev_cons_nil] at h
      exact absurd h (by omega)
    | cons y ys =>
      rw [lev_cons_cons] at h
      by_cases hxy : x = y
      · subst hxy
        simp only [if_pos rfl] at h
        have hz : lev xs ys = 0 := by omega
        rw [ih hz]
      · simp only [if_neg hxy] at h
        exact absurd h (by omega)

theorem lev_comm_aux : ∀ n xs ys, xs.length + ys.length ≤ n → lev xs ys = lev ys xs := by
  intro n
  induction n with
  | zero =>
    intro xs ys h
    have hx : xs = [] := by cases xs <;> simp_all
    have hy : ys = [] := by cases ys <;> simp_all
    rw [hx, hy]
  | succ n ih =>
    intro xs ys h
    cases xs with
    | nil => rw [lev_nil_left, lev_nil_right]
    | cons x xs =>
      cases ys with
      | nil => rw [lev_nil_right, lev_nil_left]
      | cons y ys =>
        rw [lev_cons_cons, lev_cons_cons]
        rw [ih xs (y :: ys) (by simp at h ⊢; omega)]
        rw [ih (x :: xs) ys (by simp at h ⊢; omega)]
        rw [ih xs ys (by simp at h ⊢; omega)]
        have hc : (if x = y then 0 else 1) = (if y = x then 0 else 1) := by
          by_cases hxy : x = y
          · rw [if_pos hxy, if_pos hxy.symm]
          · rw [if_neg hxy, if_neg (fun h => hxy h.symm)]
        rw [hc]
        omega

theorem lev_comm (xs ys : List Char) : lev xs ys = lev ys xs :=
  lev_comm_aux (xs.length + ys.length) xs ys (le_refl _)

theorem lev_le_cons_left (x : Char) (xs c : List Char) :
    lev (x :: xs) c ≤ lev xs c + 1 := by
  cases c with
  | nil => rw [lev_cons_nil, lev_nil_right]
  | cons z cs =>
    rw [lev_cons_cons]
    exact le_trans (Nat.min_le_left _ _) (by omega)

theorem lev_le_cons_right (z : Char) (xs cs : List Char) :
    lev xs (z :: cs) ≤ lev xs cs + 1 := by
  rw [lev_comm xs (z :: cs), lev_comm xs cs]
  exact lev_le_cons_left z cs xs

theorem lev_drop_head_le (x : Char) (v : List Char) :
    ∀ c, lev v c ≤ lev (x :: v) c + 1 := by
  intro c
  induction c generalizing v with
  | nil =>
    rw [lev_nil_right, lev_cons_nil]
    omega
  | cons z cs ih =>
    rw [lev_cons_cons]
    have h1 : lev v (z :: cs) ≤ (lev v (z :: cs) + 1) + 1 := by omega
    have h2 : lev v (z :: cs) ≤ (lev (x :: v) cs + 1) + 1 := by
      have ha := lev_le_cons_right z v cs
      have hb := ih (v := v)
      omega
    have h3 : lev v (z :: cs) ≤ (lev v cs + (if x = z then 0 else 1)) + 1 := by
      have ha := lev_le_cons_right z v cs
      have hb : (0:Nat) ≤ if x = z then 0 else 1 := by omega
      split <;> omega
    omega

theorem lev_subst_head_le (x y : Char) (v : List Char) :
    ∀ c, lev (x :: v) c ≤ lev (y :: v) c + 1 := by
  intro c
  induction c generalizing v with
  | nil =>
    rw [lev_cons_nil, lev_cons_nil]
    omega
  | cons z cs ih =>
    have hL1 : lev (x :: v) (z :: cs) ≤ lev v (z :: cs) + 1 := by
      rw [lev_cons_cons]; exact Nat.min_le_left _ _
    have hL2 : lev (x :: v) (z :: cs) ≤ lev (x :: v) cs + 1 := by
      rw [lev_cons_cons]
      exact le_trans (Nat.min_le_right _ _) (Nat.min_le_left _ _)
    have hL3 : lev (x :: v) (z :: cs) ≤ lev v cs + (if x = z then 0 else 1) := by
      rw [lev_cons_cons]
      exact le_trans (Nat.min_le_right _ _) (Nat.min_le_right _ _)
    have hx1 : (if x = z then (0:Nat) else 1) ≤ 1 := by split <;> omega
    have hy1 : (if y = z then (0:Nat) else 1) ≤ 1 := by split <;> omega
    have hih := ih (v := v)
    rw [lev_cons_cons y z v cs]
    omega

theorem lev_del_mid_le (x : Char) :
    ∀ u v c, lev (u ++ v) c ≤ lev (u ++ x :: v) c + 1 := by
  intro u
  induction u with
  | nil =>
    intro v c
    exact lev_drop_head_le x v c
  | cons a u ih =>
    intro v c
    induction c with
    | nil =>
      rw [lev_nil_right, lev_nil_right]
      simp only [List.cons_append, List.length_cons, List.length_append]
      omega
    | cons z cs ihc =>
      have hL1 : lev (a :: (u ++ v)) (z :: cs) ≤ lev (u ++ v) (z :: cs) + 1 := by
        rw [lev_cons_cons]; exact Nat.min_le_left _ _
      have hL2 : lev (a :: (u ++ v)) (z :: cs) ≤ lev (a :: (u ++ v)) cs + 1 := by
        rw [lev_cons_cons]
        exact le_trans (Nat.min_le_right _ _) (Nat.min_le_left _ _)
      have hL3 : lev (a :: (u ++ v)) (z :: cs) ≤
          lev (u ++ v) cs + (if a = z then 0 else 1) := by
        rw [lev_cons_cons]
        exact le_trans (Nat.min_le_right _ _) (Nat.min_le_right _ _)
      have h1 := ih v (z :: cs)
      have h2 : lev (a :: (u ++ v)) cs ≤ lev (a :: (u ++ x :: v)) cs + 1 := ihc
      have h3 := ih v cs
      have hz : (if a = z then (0:Nat) else 1) ≤ 1 := by split <;> omega
      show lev (a :: (u ++ v)) (z :: cs) ≤ lev (a :: (u ++ x :: v)) (z :: cs) + 1
      rw [lev_cons_cons a z (u ++ x :: v) cs]
      omega

theorem lev_ins_mid_le (x : Char) :
    ∀ u v c, lev (u ++ x :: v) c ≤ lev (u ++ v) c + 1 := by
  intro u
  induction u with
  | nil =>
    intro v c
    exact lev_le_cons_left x v c
  | cons a u ih =>
    intro v c
    induction c with
    | nil =>
      rw [lev_nil_right, lev_nil_right]
      simp only [List.cons_append, List.length_cons, List.length_append]
      omega
    | cons z cs ihc =>
      have hL1 : lev (a :: (u ++ x :: v)) (z :: cs) ≤ lev (u ++ x :: v) (z :: cs) + 1 := by
        rw [lev_cons_cons]; exact Nat.min_le_left _ _
      have hL2 : lev (a :: (u ++ x :: v)) (z :: cs) ≤ lev (a :: (u ++ x :: v)) cs + 1 := by
        rw [lev_cons_cons]
        exact le_trans (Nat.min_le_right _ _) (Nat.min_le_left _ _)
      have hL3 : lev (a :: (u ++ x :: v)) (z :: cs) ≤
          lev (u ++ x :: v) cs + (if a = z then 0 else 1) := by
        rw [lev_cons_cons]
        exact le_trans (Nat.min_le_right _ _) (Nat.min_le_right _ _)
      have h1 := ih v (z :: cs)
      have h2 : lev (a :: (u ++ x :: v)) cs ≤ lev (a :: (u ++ v)) cs + 1 := ihc
      have h3 := ih v cs
      have hz : (if a = z then (0:Nat) else 1) ≤ 1 := by split <;> omega
      show lev (a :: (u ++ x :: v)) (z :: cs) ≤ lev (a :: (u ++ v)) (z :: cs) + 1
      rw [lev_cons_cons a z (u ++ v) cs]
      omega

theorem lev_sub_mid_le (x y : Char) :
    ∀ u v c, lev (u ++ x :: v) c ≤ lev (u ++ y :: v) c + 1 := by
  intro u
  induction u with
  | nil =>
    intro v c
    exact lev_subst_head_le x y v c
  | cons a u ih =>
    intro v c
    induction c with
    | nil =>
      rw [lev_nil_right, lev_nil_right]
      simp only [List.cons_append, List.length_cons, List.length_append]
      omega
    | cons z cs ihc =>
      have hL1 : lev (a :: (u ++ x :: v)) (z :: cs) ≤ lev (u ++ x :: v) (z :: cs) + 1 := by
        rw [lev_cons_cons]; exact Nat.min_le_left _ _
      have hL2 : lev (a :: (u ++ x :: v)) (z :: cs) ≤ lev (a :: (u ++ x :: v)) cs + 1 := by
        rw [lev_cons_cons]
        exact le_trans (Nat.min_le_right _ _) (Nat.min_le_left _ _)
      have hL3 : lev (a :: (u ++ x :: v)) (z :: cs) ≤
          lev (u ++ x :: v) cs + (if a = z then 0 else 1) := by
        rw [lev_cons_cons]
        exact le_trans (Nat.min_le_right _ _) (Nat.min_le_right _ _)
      have h1 := ih v (z :: cs)
      have h2 : lev (a :: (u ++ x :: v)) cs ≤ lev (a :: (u ++ y :: v)) cs + 1 := ihc
      have h3 := ih v cs
      have hz : (if a = z then (0:Nat) else 1) ≤ 1 := by split <;> omega
      show lev (a :: (u ++ x :: v)) (z :: cs) ≤ lev (a :: (u ++ y :: v)) (z :: cs) + 1
      rw [lev_cons_cons a z (u ++ y :: v) cs]
      omega

/-- A single character edit: insertion, deletion, or substitution at any position. -/
inductive EditStep : List Char → List Char → Prop
  | ins (u v : List Char) (x : Char) : EditStep (u ++ v) (u ++ x :: v)
  | del (u v : List Char) (x : Char) : EditStep (u ++ x :: v) (u ++ v)
  | sub (u v : List Char) (x y : Char) : EditStep (u ++ x :: v) (u ++ y :: v)

/-- There is a chain of at most `n` single edits from the first list to the second. -/
inductive Reach : Nat → List Char → List Char → Prop
  | refl (n : Nat) (a : List Char) : Reach n a a
  | step {n : Nat} {a b c : List Char} : EditStep a b → Reach n b c → Reach (n + 1) a c

theorem lev_le_of_editStep (h : EditStep a b) (c : List Char) :
    lev a c ≤ lev b c + 1 := by
  cases h with
  | ins u v x => exact lev_del_mid_le x u v c
  | del u v x => exact lev_ins_mid_le x u v c
  | sub u v x y => exact lev_sub_mid_le x y u v c

theorem lev_le_of_reach : ∀ {n : Nat} {a b : List Char}, Reach n a b → lev a b ≤ n := by
  intro n a b h
  induction h with
  | refl n a => rw [lev_self]; omega
  | @step n a b c hs _ ih =>
    have := lev_le_of_editStep hs c
    omega

theorem Reach.mono : ∀ {n m : Nat} {a b : List Char}, Reach n a b → n ≤ m → Reach m a b := by
  intro n m a b h
  induction h generalizing m with
  | refl n a => intro _; exact Reach.refl m a
  | step hs ht ih =>
    intro hle
    cases m with
    | zero => omega
    | succ m => exact Reach.step hs (ih (by omega))

theorem Reach.trans : ∀ {m n : Nat} {a b c : List Char},
    Reach m a b → Reach n b c → Reach (m + n) a c := by
  intro m n a b c h1 h2
  induction h1 with
  | refl m a => exact h2.mono (by omega)
  | @step m a b d hs _ ih =>
    have hstep := Reach.step hs (ih h2)
    exact hstep.mono (by omega)

theorem editStep_cons (a : Char) (h : EditStep s t) : EditStep (a :: s) (a :: t) := by
  cases h with
  | ins u v x => exact EditStep.ins (a :: u) v x
  | del u v x => exact EditStep.del (a :: u) v x
  | sub u v x y => exact EditStep.sub (a :: u) v x y

theorem reach_cons (a : Char) : ∀ {n : Nat} {s t : List Char},
    Reach n s t → Reach n (a :: s) (a :: t) := by
  intro n s t h
  induction h with
  | refl n s => exact Reach.refl n (a :: s)
  | step hs _ ih => exact Reach.step (editStep_cons a hs) ih

theorem reach_nil_left : ∀ b : List Char, Reach b.length [] b := by
  intro b
  induction b with
  | nil => exact Reach.refl 0 []
  | cons y ys ih =>
    have hstep : EditStep ys (y :: ys) := EditStep.ins [] ys y
    have := Reach.trans ih (Reach.step hstep (Reach.refl 0 (y :: ys)))
    exact this.mono (by simp)

theorem reach_nil_right : ∀ a : List Char, Reach a.length a [] := by
  intro a
  induction a with
  | nil => exact Reach.refl 0 []
  | cons x xs ih =>
    have hstep : EditStep (x :: xs) xs := EditStep.del [] xs x
    have := Reach.step hstep ih
    exact this.mono (by simp)

theorem reach_lev_aux : ∀ n a b, a.length + b.length ≤ n → Reach (lev a b) a b := by
  intro n
  induction n with
  | zero =>
    intro a b h
    have ha : a = [] := by cases a <;> simp_all
    have hb : b = [] := by cases b <;> simp_all
    subst ha; subst hb
    exact Reach.refl _ []
  | succ n ih =>
    intro a b h
    cases a with
    | nil => rw [lev_nil_left]; exact reach_nil_left b
    | cons x xs =>
      cases b with
      | nil => rw [lev_nil_right]; exact reach_nil_right (x :: xs)
      | cons y ys =>
        rw [lev_cons_cons]
        simp only [List.length_cons] at h
        have hA := ih xs (y :: ys) (by simp only [List.length_cons]; omega)
        have hB := ih (x :: xs) ys (by simp only [List.length_cons]; omega)
        have hC := ih xs ys (by omega)
        have hcase : min (lev xs (y :: ys) + 1)
              (min (lev (x :: xs) ys + 1) (lev xs ys + (if x = y then 0 else 1))) =
              lev xs (y :: ys) + 1 ∨
            min (lev xs (y :: ys) + 1)
              (min (lev (x :: xs) ys + 1) (lev xs ys + (if x = y then 0 else 1))) =
              lev (x :: xs) ys + 1 ∨
            min (lev xs (y :: ys) + 1)
              (min (lev (x :: xs) ys + 1) (lev xs ys + (if x = y then 0 else 1))) =
              lev xs ys + (if x = y then 0 else 1) := by
          omega
        rcases hcase with hc | hc | hc <;> rw [hc]
        · exact Reach.step (EditStep.del [] xs x) hA
        · have hfront : EditStep (x :: xs) (y :: x :: xs) := EditStep.ins [] (x :: xs) y
          exact Reach.step hfront (reach_cons y hB)
        · by_cases hxy : x = y
          · subst hxy
            rw [if_pos rfl]
            have := reach_cons x hC
            exact this.mono (by omega)
          · rw [if_neg hxy]
            have hfront : EditStep (x :: xs) (y :: xs) := EditStep.sub [] xs x y
            have := Reach.step hfront (reach_cons y hC)
            exact this.mono (by omega)

theorem reach_lev (a b : List Char) : Reach (lev a b) a b :=
  reach_lev_aux (a.length + b.length) a b (le_refl _)

theorem lev_triangle (a b c : List Char) : lev a c ≤ lev a b + lev b c :=
  lev_le_of_reach ((reach_lev a b).trans (reach_lev b c))

/-- Edit distance between two strings, as the matcher computes it
(`new Levenshtein(a, b).distance`). -/
def levStr (a b : String) : Nat := lev a.data b.data

/-! ### Path segmentation and case normalization -/

/-- JS `str.split("/")` on the character list (single-character separator). -/
def splitSlash : List Char → List (List Char)
  | [] => [[]]
  | '/' :: rest => [] :: splitSlash rest
  | c :: rest =>
    match splitSlash rest with
    | [] => [[c]]
    | s :: ss => (c :: s) :: ss

/-- JS `path.split("/").filter(Boolean)`: the non-empty `/`-separated chunks. -/
def pathSegments (s : String) : List String :=
  ((splitSlash s.data).filter (fun cs => cs ≠ [])).map (fun cs => String.mk cs)

/-- JS `str.toLowerCase()` (character-wise lowercasing). -/
def lowerStr (s : String) : String := String.mk (s.data.map Char.toLower)

/-- JS `str.join("/")` on a string array. -/
def joinSlash (l : List String) : String :=
  String.mk (List.intercalate ['/'] (l.map String.data))

/-- JS `segment.startsWith(":")`. -/
def isParamSeg (s : String) : Bool :=
  match s.data with
  | ':' :: _ => true
  | _ => false

/-- JS `segment.substring(1)`. -/
def dropFirst (s : String) : String := String.mk (s.data.drop 1)

/-! ### Data model of the router -/

/-- The options record built in `createAdvancedTypoTolerantRouter`; the
tolerance is the spec's non-negative integer. The collaborator-only fields
(`redirectToCorrect`, `logCorrections`) play no part in `findBestMatch`. -/
structure Config where
  tolerance : Nat
  caseSensitive : Bool
  applyToAllMethods : Bool
  handleParams : Bool
deriving DecidableEq

/-- Case normalization per config (`config.caseSensitive ? s : s.toLowerCase()`). -/
def normCase (cfg : Config) (s : String) : String :=
  if cfg.caseSensitive then s else lowerStr s

/-- A catalog entry as produced by `getRegisteredRoutes`: absolute path
template and lowercased method. -/
structure Route where
  path : String
  method : String
deriving DecidableEq

/-- JS `path.includes(":")`: the `hasParams` flag set at catalog construction. -/
def Route.hasParams (r : Route) : Bool := r.path.data.contains ':'

/-- The result object of `findBestMatch`; `matchedUrl` is only set on
parameterized outcomes (JS leaves it undefined on static ones). -/
structure MatchOutcome where
  path : String
  method : String
  distance : Nat
  hasParams : Bool
  matchedUrl : Option String
  params : List (String × String)
deriving DecidableEq

/-- JS object property assignment `params[k] = v`: overwrite the entry in
place when the key exists, append otherwise. -/
def setParam : List (String × String) → String → String → List (String × String)
  | [], k, v => [(k, v)]
  | (k', v') :: rest, k, v =>
    if k' = k then (k, v) :: rest else (k', v') :: setParam rest k v

/-- JS property read `params[k]`. -/
def lookupParam : List (String × String) → String → Option String
  | [], _ => none
  | (k', v') :: rest, k => if k' = k then some v' else lookupParam rest k

/-! ### Exact structural matching (model of `pathToRegexp(...).exec`) -/

/-- A template segment: literal text, or a named parameter. -/
inductive Seg where
  | lit (text : String)
  | param (name : String)
deriving DecidableEq

def isWordChar (c : Char) : Bool := c.isAlpha || c.isDigit || c = '_'

/-- Characters that pathToRegexp passes through as plain literal text. -/
def plainChar (c : Char) : Bool :=
  !(c = ':' || c = '(' || c = ')' || c = '*' || c = '+' || c = '?' || c = '.' || c = '\\')

/-- One `/`-delimited template chunk: `:name` becomes a parameter capture,
plain text a literal. -/
def parseChunk (cs : List Char) : Option Seg :=
  match cs with
  | [] => none
  | ':' :: name =>
    if name.isEmpty then none
    else if name.all isWordChar then some (Seg.param (String.mk name)) else none
  | _ => if cs.all plainChar then some (Seg.lit (String.mk cs)) else none

/-- All template chunks, each parsed by `parseChunk`. -/
def parseChunks : List (List Char) → Option (List Seg)
  | [] => some []
  | c :: cs =>
    match parseChunk c, parseChunks cs with
    | some s, some ss => some (s :: ss)
    | _, _ => none

/-- Modelled tokenizer of `pathToRegexp(route.path, keys)` for
segment-structured templates: a leading slash followed by non-empty chunks,
each a literal or a whole-segment `:name` parameter. -/
def parseTemplate (s : String) : Option (List Seg) :=
  match splitSlash s.data with
  | [] :: chunks => if chunks.isEmpty then none else parseChunks chunks
  | _ => none

/-- The optional trailing slash that the default (non-strict) regexp accepts. -/
def dropTrailingEmpty (l : List (List Char)) : List (List Char) :=
  match l.getLast? with
  | some [] => l.dropLast
  | _ => l

/-- Matching the request chunks against the template segments: literals must
agree case-insensitively (the regexp is built with the default `i` flag),
parameters capture any non-empty chunk verbatim. Returns the raw capture
pairs in template order. -/
def matchBody : List Seg → List (List Char) → Option (List (String × String))
  | [], [] => some []
  | Seg.lit t :: segs, c :: cs =>
    if lowerStr t = lowerStr (String.mk c) then matchBody segs cs else none
  | Seg.param n :: segs, c :: cs =>
    if c.isEmpty then none
    else (matchBody segs cs).map (fun ps => (n, String.mk c) :: ps)
  | _, _ => none

/-- Model of `route.regexp.exec(originalPath)` followed by the parameter
extraction loop (lines 192-199): the whole request must be `/` plus one chunk
per template segment, optionally ending in `/`. -/
def execMatch (template request : String) : Option (List (String × String)) :=
  match parseTemplate template with
  | none => none
  | some segs =>
    match splitSlash request.data with
    | [] :: rest =>
      match matchBody segs (dropTrailingEmpty rest) with
      | none => none
      | some pairs => some (pairs.foldl (fun m kv => setParam m kv.1 kv.2) [])
    | _ => none

/-! ### The fuzzy segment matcher and `findBestMatch` -/

/-- The per-segment walk (lines 267-300): a position beyond either list adds
one; a parameter segment binds the requested segment at no cost; a literal
segment adds its normalized edit distance, rejecting the template outright
when that single distance exceeds tolerance. -/
def segWalk (cfg : Config) : List String → List String → Nat → List (String × String) →
    Option (Nat × List (String × String))
  | [], rs, total, params => some (total + rs.length, params)
  | os, [], total, params => some (total + os.length, params)
  | o :: os, r :: rs, total, params =>
    if isParamSeg r then segWalk cfg os rs total (setParam params (dropFirst r) o)
    else
      let d := levStr (normCase cfg o) (normCase cfg r)
      if cfg.tolerance < d then none
      else segWalk cfg os rs (total + d) params

/-- JS `Math.abs(a - b)` on segment counts. -/
def absDiff (a b : Nat) : Nat := max a b - min a b

/-- The fuzzy matcher for one parameterized template (lines 248-300):
segment-count pruning, then the segment walk. -/
def segmentMatch (originalPath : String) (cfg : Config) (routePath : String) :
    Option (Nat × List (String × String)) :=
  if cfg.tolerance < absDiff (pathSegments originalPath).length (pathSegments routePath).length
  then none
  else segWalk cfg (pathSegments originalPath) (pathSegments routePath) 0 []

/-- Reconstruction of the matched URL (lines 305-314, 321): literal segments
from the template, parameter segments from the bindings (`params[name] || ""`). -/
def reconstruct (routeSegments : List String) (params : List (String × String)) : String :=
  String.mk ('/' :: (joinSlash (routeSegments.map (fun s =>
    if isParamSeg s then (lookupParam params (dropFirst s)).getD "" else s))).data)

/-- Full-path normalized distance of a static candidate (lines 219-228). -/
def staticDist (p : String) (cfg : Config) (r : Route) : Nat :=
  levStr (normCase cfg p) (normCase cfg r.path)

/-- The candidate object built in the static scan (lines 233-238). -/
def mkStatic (p : String) (cfg : Config) (r : Route) : MatchOutcome :=
  { path := r.path, method := r.method, distance := staticDist p cfg r,
    hasParams := false, matchedUrl := none, params := [] }

/-- JS `distance < minDistance` with `minDistance` starting at `Infinity`
(the tracked minimum always equals the tracked best's distance). -/
def beatsBest (cur : Option MatchOutcome) (d : Nat) : Bool :=
  match cur with
  | none => true
  | some b => d < b.distance

/-- One step of the static scan (lines 217-241). -/
def staticStep (p : String) (cfg : Config) (cur : Option MatchOutcome) (r : Route) :
    Option MatchOutcome :=
  if r.hasParams then cur
  else if beatsBest cur (staticDist p cfg r) then some (mkStatic p cfg r) else cur

/-- The candidate object built in the fuzzy scan (lines 316-323). -/
def mkFuzzy (r : Route) (d : Nat) (params : List (String × String)) : MatchOutcome :=
  { path := r.path, method := r.method, distance := d, hasParams := true,
    matchedUrl := some (reconstruct (pathSegments r.path) params), params := params }

/-- One step of the fuzzy parameterized scan (lines 248-326). -/
def fuzzyStep (p : String) (cfg : Config) (cur : Option MatchOutcome) (r : Route) :
    Option MatchOutcome :=
  if r.hasParams then
    match segmentMatch p cfg r.path with
    | some (d, params) => if beatsBest cur d then some (mkFuzzy r d params) else cur
    | none => cur
  else cur

/-- The exact-match pass over parameterized templates (lines 189-214),
returning the first template whose regexp matches the raw request. -/
def findExact (p : String) : List Route → Option MatchOutcome
  | [] => none
  | r :: rest =>
    if r.hasParams then
      match execMatch r.path p with
      | some params =>
        some { path := r.path, method := r.method, distance := 0, hasParams := true,
               matchedUrl := some p, params := params }
      | none => findExact p rest
    else findExact p rest

/-- Does the static scan's result force the fuzzy pass
(JS `!bestMatch || bestMatch.distance > config.tolerance`)? -/
def pastTolerance (cfg : Config) : Option MatchOutcome → Bool
  | none => true
  | some b => cfg.tolerance < b.distance

/-- Method filtering (lines 184-186). -/
def methodFilter (routes : List Route) (method : String) (cfg : Config) : List Route :=
  routes.filter (fun r => cfg.applyToAllMethods || r.method == method)

/-- `findBestMatch(originalPath, routes, method, config)` (lines 174-331). -/
def findBestMatch (originalPath : String) (routes : List Route) (method : String)
    (cfg : Config) : Option MatchOutcome :=
  let filteredRoutes := methodFilter routes method cfg
  match (if cfg.handleParams then findExact originalPath filteredRoutes else none) with
  | some o => some o
  | none =>
    let afterStatic := filteredRoutes.foldl (staticStep originalPath cfg) none
    let best :=
      if cfg.handleParams && pastTolerance cfg afterStatic then
        filteredRoutes.foldl (fuzzyStep originalPath cfg) afterStatic
      else afterStatic
    match best with
    | some b => if b.distance ≤ cfg.tolerance then some b else none
    | none => none

/-! ### Properties of the exact-match pass -/

theorem findExact_spec : ∀ (l : List Route) (p : String) (o : MatchOutcome),
    findExact p l = some o →
    o.distance = 0 ∧ o.hasParams = true ∧ o.matchedUrl = some p ∧
      ∃ r ∈ l, r.hasParams = true ∧ o.path = r.path ∧ o.method = r.method ∧
        execMatch r.path p = some o.params := by
  intro l
  induction l with
  | nil => intro p o h; simp [findExact] at h
  | cons r rest ih =>
    intro p o h
    by_cases hrp : r.hasParams
    · simp only [findExact, if_pos hrp] at h
      cases hex : execMatch r.path p with
      | some ps =>
        rw [hex] at h
        cases h
        refine ⟨rfl, rfl, rfl, r, List.mem_cons_self r rest, hrp, rfl, rfl, ?_⟩
        rw [hex]
      | none =>
        rw [hex] at h
        obtain ⟨h1, h2, h3, r', hr', hrest⟩ := ih p o h
        exact ⟨h1, h2, h3, r', List.mem_cons_of_mem r hr', hrest⟩
    · simp only [findExact, if_neg hrp] at h
      obtain ⟨h1, h2, h3, r', hr', hrest⟩ := ih p o h
      exact ⟨h1, h2, h3, r', List.mem_cons_of_mem r hr', hrest⟩

theorem findExact_eq_none_iff : ∀ (l : List Route) (p : String),
    findExact p l = none ↔ ∀ r ∈ l, r.hasParams = true → execMatch r.path p = none := by
  intro l
  induction l with
  | nil => intro p; simp [findExact]
  | cons r rest ih =>
    intro p
    by_cases hrp : r.hasParams
    · simp only [findExact, if_pos hrp]
      cases hex : execMatch r.path p with
      | some ps =>
        simp only [List.mem_cons]
        constructor
        · intro h; exact absurd h (by simp)
        · intro h
          have := h r (Or.inl rfl) hrp
          rw [hex] at this
          exact absurd this (by simp)
      | none =>
        rw [ih p]
        constructor
        · intro h r' hr' hp'
          rcases List.mem_cons.mp hr' with he | hm
          · subst he; exact hex
          · exact h r' hm hp'
        · intro h r' hm hp'
          exact h r' (List.mem_cons_of_mem r hm) hp'
    · simp only [findExact, if_neg hrp]
      rw [ih p]
      constructor
      · intro h r' hr' hp'
        rcases List.mem_cons.mp hr' with he | hm
        · subst he; exact absurd hp' (by simp [hrp])
        · exact h r' hm hp'
      · intro h r' hm hp'
        exact h r' (List.mem_cons_of_mem r hm) hp'

theorem findExact_isSome (l : List Route) (p : String) (r : Route) (hr : r ∈ l)
    (hrp : r.hasParams = true) (hex : (execMatch r.path p).isSome = true) :
    (findExact p l).isSome = true := by
  cases hfe : findExact p l with
  | some o => rfl
  | none =>
    have := (findExact_eq_none_iff l p).mp hfe r hr hrp
    rw [this] at hex
    simp at hex

theorem findExact_skips_static : ∀ (l : List Route) (p : String),
    findExact p (l.filter (fun r => r.hasParams)) = findExact p l := by
  intro l
  induction l with
  | nil => intro p; rfl
  | cons r rest ih =>
    intro p
    by_cases hrp : r.hasParams = true
    · simp only [List.filter_cons, if_pos hrp]
      simp only [findExact, if_pos hrp]
      cases hex : execMatch r.path p with
      | some ps => rfl
      | none => exact ih p
    · simp only [List.filter_cons, if_neg hrp]
      simp only [findExact, if_neg hrp]
      exact ih p

/-! ### Properties of the static scan -/

theorem beatsBest_none (d : Nat) : beatsBest none d = true := rfl

theorem beatsBest_some (b : MatchOutcome) (d : Nat) :
    beatsBest (some b) d = true ↔ d < b.distance := by
  simp [beatsBest]

theorem staticStep_param (p : String) (cfg : Config) (cur : Option MatchOutcome)
    (r : Route) (hrp : r.hasParams = true) : staticStep p cfg cur r = cur := by
  simp [staticStep, hrp]

theorem staticStep_won (p : String) (cfg : Config) (cur : Option MatchOutcome)
    (r : Route) (hrp : r.hasParams = false)
    (hbb : beatsBest cur (staticDist p cfg r) = true) :
    staticStep p cfg cur r = some (mkStatic p cfg r) := by
  simp [staticStep, hrp, hbb]

theorem staticStep_kept (p : String) (cfg : Config) (cur : Option MatchOutcome)
    (r : Route) (hrp : r.hasParams = false)
    (hbb : beatsBest cur (staticDist p cfg r) = false) :
    staticStep p cfg cur r = cur := by
  simp [staticStep, hrp, hbb]

theorem staticFold_none_iff (p : String) (cfg : Config) : ∀ (l : List Route)
    (cur : Option MatchOutcome),
    l.foldl (staticStep p cfg) cur = none ↔ cur = none ∧ ∀ r ∈ l, r.hasParams = true := by
  intro l
  induction l with
  | nil => intro cur; simp
  | cons r rest ih =>
    intro cur
    simp only [List.foldl_cons]
    rw [ih]
    by_cases hrp : r.hasParams = true
    · rw [staticStep_param p cfg cur r hrp]
      constructor
      · rintro ⟨h1, h2⟩
        refine ⟨h1, ?_⟩
        intro r' hr'
        rcases List.mem_cons.mp hr' with he | hm
        · subst he; exact hrp
        · exact h2 r' hm
      · rintro ⟨h1, h2⟩
        exact ⟨h1, fun r' hm => h2 r' (List.mem_cons_of_mem r hm)⟩
    · have hrp' : r.hasParams = false := by simpa using hrp
      constructor
      · rintro ⟨h1, h2⟩
        exfalso
        cases hbb : beatsBest cur (staticDist p cfg r) with
        | true =>
          rw [staticStep_won p cfg cur r hrp' hbb] at h1
          cases h1
        | false =>
          rw [staticStep_kept p cfg cur r hrp' hbb] at h1
          subst h1
          rw [beatsBest_none] at hbb
          cases hbb
      · rintro ⟨h1, h2⟩
        exact absurd (h2 r (List.mem_cons_self r rest)) (by simp [hrp'])

theorem staticFold_min (p : String) (cfg : Config) : ∀ (l : List Route)
    (cur : Option MatchOutcome) (b : MatchOutcome),
    l.foldl (staticStep p cfg) cur = some b →
    (∀ c, cur = some c → b.distance ≤ c.distance) ∧
    (∀ r ∈ l, r.hasParams = false → b.distance ≤ staticDist p cfg r) := by
  intro l
  induction l with
  | nil =>
    intro cur b h
    simp only [List.foldl_nil] at h
    subst h
    exact ⟨fun c hc => by cases hc; exact le_refl _, by simp⟩
  | cons r rest ih =>
    intro cur b h
    simp only [List.foldl_cons] at h
    by_cases hrp : r.hasParams = true
    · rw [staticStep_param p cfg cur r hrp] at h
      obtain ⟨h1, h2⟩ := ih cur b h
      refine ⟨h1, ?_⟩
      intro r' hr' hp'
      rcases List.mem_cons.mp hr' with he | hm
      · subst he; exact absurd hp' (by simp [hrp])
      · exact h2 r' hm hp'
    · have hrp' : r.hasParams = false := by simpa using hrp
      cases hbb : beatsBest cur (staticDist p cfg r) with
      | true =>
        rw [staticStep_won p cfg cur r hrp' hbb] at h
        obtain ⟨h1, h2⟩ := ih _ b h
        have hbd : b.distance ≤ staticDist p cfg r := by
          have := h1 (mkStatic p cfg r) rfl
          simpa [mkStatic] using this
        constructor
        · intro c hc
          subst hc
          have hlt := (beatsBest_some c _).mp hbb
          omega
        · intro r' hr' hp'
          rcases List.mem_cons.mp hr' with he | hm
          · subst he; exact hbd
          · exact h2 r' hm hp'
      | false =>
        rw [staticStep_kept p cfg cur r hrp' hbb] at h
        obtain ⟨h1, h2⟩ := ih cur b h
        refine ⟨h1, ?_⟩
        intro r' hr' hp'
        rcases List.mem_cons.mp hr' with he | hm
        · rw [he]
          cases hcur : cur with
          | none =>
            subst hcur
            rw [beatsBest_none] at hbb
            cases hbb
          | some c =>
            subst hcur
            have hge : ¬ (staticDist p cfg r < c.distance) := by
              intro hlt
              rw [(beatsBest_some c _).mpr hlt] at hbb
              cases hbb
            have := h1 c rfl
            omega
        · exact h2 r' hm hp'

theorem mkStatic_distance (p : String) (cfg : Config) (r : Route) :
    (mkStatic p cfg r).distance = staticDist p cfg r := rfl

theorem staticFold_mem (p : String) (cfg : Config) : ∀ (l : List Route)
    (cur : Option MatchOutcome) (b : MatchOutcome),
    l.foldl (staticStep p cfg) cur = some b →
    cur = some b ∨ ∃ r ∈ l, r.hasParams = false ∧ b = mkStatic p cfg r := by
  intro l
  induction l with
  | nil =>
    intro cur b h
    simp only [List.foldl_nil] at h
    exact Or.inl h
  | cons r rest ih =>
    intro cur b h
    simp only [List.foldl_cons] at h
    by_cases hrp : r.hasParams = true
    · rw [staticStep_param p cfg cur r hrp] at h
      rcases ih cur b h with hc | ⟨r', hm, hp', hb⟩
      · exact Or.inl hc
      · exact Or.inr ⟨r', List.mem_cons_of_mem r hm, hp', hb⟩
    · have hrp' : r.hasParams = false := by simpa using hrp
      cases hbb : beatsBest cur (staticDist p cfg r) with
      | true =>
        rw [staticStep_won p cfg cur r hrp' hbb] at h
        rcases ih _ b h with hc | ⟨r', hm, hp', hb⟩
        · exact Or.inr ⟨r, List.mem_cons_self r rest, hrp', (Option.some_inj.mp hc).symm⟩
        · exact Or.inr ⟨r', List.mem_cons_of_mem r hm, hp', hb⟩
      | false =>
        rw [staticStep_kept p cfg cur r hrp' hbb] at h
        rcases ih cur b h with hc | ⟨r', hm, hp', hb⟩
        · exact Or.inl hc
        · exact Or.inr ⟨r', List.mem_cons_of_mem r hm, hp', hb⟩

theorem staticFold_first (p : String) (cfg : Config) : ∀ (l : List Route)
    (cur : Option MatchOutcome) (b : MatchOutcome),
    l.foldl (staticStep p cfg) cur = some b →
    (cur = some b ∧ ∀ r ∈ l, r.hasParams = false →
        beatsBest cur (staticDist p cfg r) = false) ∨
    ∃ l1 r l2, l = l1 ++ r :: l2 ∧ r.hasParams = false ∧ b = mkStatic p cfg r ∧
      beatsBest cur (staticDist p cfg r) = true ∧
      (∀ r' ∈ l1, r'.hasParams = false → staticDist p cfg r < staticDist p cfg r') ∧
      (∀ r' ∈ l2, r'.hasParams = false → staticDist p cfg r ≤ staticDist p cfg r') := by
  intro l
  induction l with
  | nil =>
    intro cur b h
    simp only [List.foldl_nil] at h
    exact Or.inl ⟨h, by simp⟩
  | cons r rest ih =>
    intro cur b h
    simp only [List.foldl_cons] at h
    by_cases hrp : r.hasParams = true
    · rw [staticStep_param p cfg cur r hrp] at h
      rcases ih cur b h with ⟨hc, hall⟩ | ⟨l1, r0, l2, hsplit, hp0, hb, hbb, h1, h2⟩
      · refine Or.inl ⟨hc, ?_⟩
        intro r' hr' hp'
        rcases List.mem_cons.mp hr' with he | hm
        · rw [he] at hp'; exact absurd hp' (by simp [hrp])
        · exact hall r' hm hp'
      · refine Or.inr ⟨r :: l1, r0, l2, by rw [hsplit]; rfl, hp0, hb, hbb, ?_, h2⟩
        intro r' hr' hp'
        rcases List.mem_cons.mp hr' with he | hm
        · rw [he] at hp'; exact absurd hp' (by simp [hrp])
        · exact h1 r' hm hp'
    · have hrp' : r.hasParams = false := by simpa using hrp
      cases hbb : beatsBest cur (staticDist p cfg r) with
      | false =>
        rw [staticStep_kept p cfg cur r hrp' hbb] at h
        have hcur : ∃ c, cur = some c := by
          cases hcc : cur with
          | none => subst hcc; rw [beatsBest_none] at hbb; cases hbb
          | some c => exact ⟨c, rfl⟩
        obtain ⟨c, hc⟩ := hcur
        rcases ih cur b h with ⟨hcb, hall⟩ | ⟨l1, r0, l2, hsplit, hp0, hb, hbb0, h1, h2⟩
        · refine Or.inl ⟨hcb, ?_⟩
          intro r' hr' hp'
          rcases List.mem_cons.mp hr' with he | hm
          · rw [he]; exact hbb
          · exact hall r' hm hp'
        · refine Or.inr ⟨r :: l1, r0, l2, by rw [hsplit]; rfl, hp0, hb, hbb0, ?_, h2⟩
          intro r' hr' hp'
          rcases List.mem_cons.mp hr' with he | hm
          · subst hc
            have hlt := (beatsBest_some c _).mp hbb0
            have hge : ¬ (staticDist p cfg r < c.distance) := by
              intro hx
              rw [(beatsBest_some c _).mpr hx] at hbb
              cases hbb
            rw [he]
            omega
          · exact h1 r' hm hp'
      | true =>
        rw [staticStep_won p cfg cur r hrp' hbb] at h
        rcases ih _ b h with ⟨hcb, hall⟩ | ⟨l1, r0, l2, hsplit, hp0, hb, hbb0, h1, h2⟩
        · have hbmk : b = mkStatic p cfg r := (Option.some_inj.mp hcb).symm
          refine Or.inr ⟨[], r, rest, rfl, hrp', hbmk, hbb, by simp, ?_⟩
          intro r' hm hp'
          have := hall r' hm hp'
          have hnl : ¬ (staticDist p cfg r' < staticDist p cfg r) := by
            intro hx
            rw [(beatsBest_some (mkStatic p cfg r) _).mpr
              (by rw [mkStatic_distance]; exact hx)] at this
            cases this
          omega
        · have hlt : staticDist p cfg r0 < staticDist p cfg r := by
            have := (beatsBest_some (mkStatic p cfg r) _).mp hbb0
            rw [mkStatic_distance] at this
            exact this
          refine Or.inr ⟨r :: l1, r0, l2, by rw [hsplit]; rfl, hp0, hb, ?_, ?_, h2⟩
          · cases hcc : cur with
            | none => exact beatsBest_none _
            | some c =>
              subst hcc
              have hc := (beatsBest_some c _).mp hbb
              exact (beatsBest_some c _).mpr (by omega)
          · intro r' hr' hp'
            rcases List.mem_cons.mp hr' with he | hm
            · rw [he]; exact hlt
            · exact h1 r' hm hp'

/-! ### Properties of the fuzzy scan -/

theorem fuzzyStep_param (p : String) (cfg : Config) (cur : Option MatchOutcome)
    (r : Route) (hrp : r.hasParams = false) : fuzzyStep p cfg cur r = cur := by
  simp [fuzzyStep, hrp]

theorem fuzzyStep_noMatch (p : String) (cfg : Config) (cur : Option MatchOutcome)
    (r : Route) (hsm : segmentMatch p cfg r.path = none) : fuzzyStep p cfg cur r = cur := by
  by_cases hrp : r.hasParams = true
  · simp [fuzzyStep, hrp, hsm]
  · simp [fuzzyStep, hrp]

theorem fuzzyStep_won (p : String) (cfg : Config) (cur : Option MatchOutcome)
    (r : Route) (d : Nat) (ps : List (String × String)) (hrp : r.hasParams = true)
    (hsm : segmentMatch p cfg r.path = some (d, ps)) (hbb : beatsBest cur d = true) :
    fuzzyStep p cfg cur r = some (mkFuzzy r d ps) := by
  simp [fuzzyStep, hrp, hsm, hbb]

theorem fuzzyStep_kept (p : String) (cfg : Config) (cur : Option MatchOutcome)
    (r : Route) (d : Nat) (ps : List (String × String)) (hrp : r.hasParams = true)
    (hsm : segmentMatch p cfg r.path = some (d, ps)) (hbb : beatsBest cur d = false) :
    fuzzyStep p cfg cur r = cur := by
  simp [fuzzyStep, hrp, hsm, hbb]

theorem fuzzyStep_cases (p : String) (cfg : Config) (cur : Option MatchOutcome) (r : Route) :
    fuzzyStep p cfg cur r = cur ∨
    ∃ d ps, r.hasParams = true ∧ segmentMatch p cfg r.path = some (d, ps) ∧
      beatsBest cur d = true ∧ fuzzyStep p cfg cur r = some (mkFuzzy r d ps) := by
  by_cases hrp : r.hasParams = true
  · cases hsm : segmentMatch p cfg r.path with
    | none => exact Or.inl (fuzzyStep_noMatch p cfg cur r hsm)
    | some dp =>
      obtain ⟨d, ps⟩ := dp
      cases hbb : beatsBest cur d with
      | false => exact Or.inl (fuzzyStep_kept p cfg cur r d ps hrp hsm hbb)
      | true => exact Or.inr ⟨d, ps, hrp, rfl, hbb, fuzzyStep_won p cfg cur r d ps hrp hsm hbb⟩
  · exact Or.inl (fuzzyStep_param p cfg cur r (by simpa using hrp))

theorem mkFuzzy_distance (r : Route) (d : Nat) (ps : List (String × String)) :
    (mkFuzzy r d ps).distance = d := rfl

theorem fuzzyFold_none_iff (p : String) (cfg : Config) : ∀ (l : List Route)
    (cur : Option MatchOutcome),
    l.foldl (fuzzyStep p cfg) cur = none ↔
      cur = none ∧ ∀ r ∈ l, r.hasParams = true → segmentMatch p cfg r.path = none := by
  intro l
  induction l with
  | nil => intro cur; simp
  | cons r rest ih =>
    intro cur
    simp only [List.foldl_cons]
    rw [ih]
    rcases fuzzyStep_cases p cfg cur r with hc | ⟨d, ps, hrp, hsm, hbb, hc⟩
    · rw [hc]
      constructor
      · rintro ⟨h1, h2⟩
        refine ⟨h1, ?_⟩
        intro r' hr' hp'
        rcases List.mem_cons.mp hr' with he | hm
        · subst h1
          rcases fuzzyStep_cases p cfg none r with hc' | ⟨d, ps, hrp, hsm, hbb, hc'⟩
          · rw [he]
            cases hsm' : segmentMatch p cfg r.path with
            | none => rfl
            | some dp =>
              obtain ⟨d, ps⟩ := dp
              by_cases hrp : r.hasParams = true
              · rw [fuzzyStep_won p cfg none r d ps hrp hsm' (beatsBest_none d)] at hc'
                cases hc'
              · rw [he] at hp'; exact absurd hp' hrp
          · rw [hc] at hc'; cases hc'
        · exact h2 r' hm hp'
      · rintro ⟨h1, h2⟩
        exact ⟨h1, fun r' hm => h2 r' (List.mem_cons_of_mem r hm)⟩
    · rw [hc]
      constructor
      · rintro ⟨h1, _⟩; cases h1
      · rintro ⟨h1, h2⟩
        subst h1
        have := h2 r (List.mem_cons_self r rest) hrp
        rw [this] at hsm
        cases hsm

theorem fuzzyFold_min (p : String) (cfg : Config) : ∀ (l : List Route)
    (cur : Option MatchOutcome) (b : MatchOutcome),
    l.foldl (fuzzyStep p cfg) cur = some b →
    (∀ c, cur = some c → b.distance ≤ c.distance) ∧
    (∀ r ∈ l, r.hasParams = true → ∀ d ps, segmentMatch p cfg r.path = some (d, ps) →
      b.distance ≤ d) := by
  intro l
  induction l with
  | nil =>
    intro cur b h
    simp only [List.foldl_nil] at h
    subst h
    exact ⟨fun c hc => by cases hc; exact le_refl _, by simp⟩
  | cons r rest ih =>
    intro cur b h
    simp only [List.foldl_cons] at h
    rcases fuzzyStep_cases p cfg cur r with hc | ⟨d, ps, hrp, hsm, hbb, hc⟩
    · rw [hc] at h
      obtain ⟨h1, h2⟩ := ih cur b h
      refine ⟨h1, ?_⟩
      intro r' hr' hp' d' ps' hsm'
      rcases List.mem_cons.mp hr' with he | hm
      · subst he
        cases hcur : cur with
        | none =>
          subst hcur
          rw [fuzzyStep_won p cfg none r' d' ps' hp' hsm' (beatsBest_none d')] at hc
          cases hc
        | some c =>
          subst hcur
          cases hbb : beatsBest (some c) d' with
          | true =>
            rw [fuzzyStep_won p cfg (some c) r' d' ps' hp' hsm' hbb] at hc
            have : mkFuzzy r' d' ps' = c := Option.some_inj.mp hc
            have hdc : c.distance = d' := by rw [← this, mkFuzzy_distance]
            have := h1 c rfl
            omega
          | false =>
            have hge := (beatsBest_some c d').not.mp (by rw [hbb]; simp)
            have := h1 c rfl
            omega
      · exact h2 r' hm hp' d' ps' hsm'
    · rw [hc] at h
      obtain ⟨h1, h2⟩ := ih _ b h
      have hbd : b.distance ≤ d := by
        have := h1 (mkFuzzy r d ps) rfl
        rw [mkFuzzy_distance] at this
        exact this
      constructor
      · intro c hcc
        subst hcc
        have hlt := (beatsBest_some c _).mp hbb
        omega
      · intro r' hr' hp' d' ps' hsm'
        rcases List.mem_cons.mp hr' with he | hm
        · subst he
          rw [hsm'] at hsm
          cases hsm
          exact hbd
        · exact h2 r' hm hp' d' ps' hsm'

theorem fuzzyFold_mem (p : String) (cfg : Config) : ∀ (l : List Route)
    (cur : Option MatchOutcome) (b : MatchOutcome),
    l.foldl (fuzzyStep p cfg) cur = some b →
    cur = some b ∨ ∃ r d ps, r ∈ l ∧ r.hasParams = true ∧
      segmentMatch p cfg r.path = some (d, ps) ∧ b = mkFuzzy r d ps := by
  intro l
  induction l with
  | nil =>
    intro cur b h
    simp only [List.foldl_nil] at h
    exact Or.inl h
  | cons r rest ih =>
    intro cur b h
    simp only [List.foldl_cons] at h
    rcases fuzzyStep_cases p cfg cur r with hc | ⟨d, ps, hrp, hsm, hbb, hc⟩
    · rw [hc] at h
      rcases ih cur b h with h' | ⟨r', d', ps', hm, hp', hsm', hb'⟩
      · exact Or.inl h'
      · exact Or.inr ⟨r', d', ps', List.mem_cons_of_mem r hm, hp', hsm', hb'⟩
    · rw [hc] at h
      rcases ih _ b h with h' | ⟨r', d', ps', hm, hp', hsm', hb'⟩
      · exact Or.inr ⟨r, d, ps, List.mem_cons_self r rest, hrp, hsm,
          (Option.some_inj.mp h').symm⟩
      · exact Or.inr ⟨r', d', ps', List.mem_cons_of_mem r hm, hp', hsm', hb'⟩

theorem fuzzyFold_strict (p : String) (cfg : Config) : ∀ (l : List Route)
    (c b : MatchOutcome),
    l.foldl (fuzzyStep p cfg) (some c) = some b →
    b = c ∨ b.distance < c.distance := by
  intro l
  induction l with
  | nil =>
    intro c b h
    simp only [List.foldl_nil] at h
    exact Or.inl (Option.some_inj.mp h).symm
  | cons r rest ih =>
    intro c b h
    simp only [List.foldl_cons] at h
    rcases fuzzyStep_cases p cfg (some c) r with hc | ⟨d, ps, hrp, hsm, hbb, hc⟩
    · rw [hc] at h
      exact ih c b h
    · rw [hc] at h
      have hlt := (beatsBest_some c _).mp hbb
      rcases ih _ b h with h' | h'
      · rw [h']
        right
        rw [mkFuzzy_distance]
        exact hlt
      · rw [mkFuzzy_distance] at h'
        right
        omega

/-! ### Unfolding helpers for `findBestMatch` -/

theorem ifExact_some {c : Bool} {x : Option MatchOutcome} {o : MatchOutcome}
    (h : (if c then x else none) = some o) : c = true ∧ x = some o := by
  cases c with
  | false => simp at h
  | true => exact ⟨rfl, by simpa using h⟩

/-! ### Claim theorems -/

theorem findBestMatch_le_tolerance (p m : String) (routes : List Route)
    (cfg : Config) (o : MatchOutcome) (h : findBestMatch p routes m cfg = some o) :
    o.distance ≤ cfg.tolerance := by
  simp only [findBestMatch] at h
  cases hex : (if cfg.handleParams then findExact p (methodFilter routes m cfg) else none) with
  | some o' =>
    rw [hex] at h
    have h' : o' = o := Option.some_inj.mp h
    subst h'
    obtain ⟨hc, hfe⟩ := ifExact_some hex
    rw [(findExact_spec _ p o' hfe).1]
    exact Nat.zero_le _
  | none =>
    rw [hex] at h
    cases hb : (if cfg.handleParams && pastTolerance cfg
        ((methodFilter routes m cfg).foldl (staticStep p cfg) none) then
        (methodFilter routes m cfg).foldl (fuzzyStep p cfg)
          ((methodFilter routes m cfg).foldl (staticStep p cfg) none)
      else (methodFilter routes m cfg).foldl (staticStep p cfg) none) with
    | none =>
      rw [hb] at h
      exact absurd h (by simp)
    | some b =>
      rw [hb] at h
      have h' : (if b.distance ≤ cfg.tolerance then some b else none) = some o := h
      by_cases hd : b.distance ≤ cfg.tolerance
      · rw [if_pos hd] at h'
        cases h'
        exact hd
      · rw [if_neg hd] at h'
        exact absurd h' (by simp)

/-- C1: for every requested path, method, catalog and config, any outcome
returned by `findBestMatch` has distance at most `config.tolerance`; a
candidate whose distance exceeds tolerance is never returned (the final guard
on line 330, and the exact-match pass returns distance 0). -/
theorem claim_C1_outcome_within_tolerance (p m : String) (routes : List Route)
    (cfg : Config) (o : MatchOutcome) (h : findBestMatch p routes m cfg = some o) :
    o.distance ≤ cfg.tolerance :=
  findBestMatch_le_tolerance p m routes cfg o h

/-- Witness for C1 at a concrete input: the catalog `{GET /ab}` resolves
`/ab` to a zero-distance outcome, within the default tolerance 2. -/
theorem claim_C1_witness :
    (⟨"/ab", "get", 0, false, none, []⟩ : MatchOutcome).distance ≤
      (⟨2, false, false, true⟩ : Config).tolerance :=
  claim_C1_outcome_within_tolerance "/ab" "get" [⟨"/ab", "get"⟩] ⟨2, false, false, true⟩
    ⟨"/ab", "get", 0, false, none, []⟩ (by decide)

/-- C7: the edit distance used by the matcher is a metric on strings: it is a
function (hence deterministic), zero exactly on equal strings, symmetric, and
satisfies the triangle inequality. -/
theorem claim_C7_levStr_metric (a b c : String) :
    (levStr a b = 0 ↔ a = b) ∧ levStr a b = levStr b a ∧
      levStr a c ≤ levStr a b + levStr b c := by
  refine ⟨⟨fun h => ?_, fun h => ?_⟩, lev_comm a.data b.data, lev_triangle a.data b.data c.data⟩
  · cases a with
    | mk da =>
      cases b with
      | mk db =>
        simp only [levStr] at h
        exact congrArg String.mk (eq_of_lev_eq_zero h)
  · rw [h]
    exact lev_self b.data

theorem segWalk_reject (cfg : Config) : ∀ (os rs : List String) (i : Nat)
    (total : Nat) (params : List (String × String)),
    i < os.length → i < rs.length → isParamSeg (rs.getD i "") = false →
    cfg.tolerance < levStr (normCase cfg (os.getD i "")) (normCase cfg (rs.getD i "")) →
    segWalk cfg os rs total params = none := by
  intro os
  induction os with
  | nil =>
    intro rs i total params h1 h2 h3 h4
    simp at h1
  | cons o os ih =>
    intro rs i total params h1 h2 h3 h4
    cases rs with
    | nil => simp at h2
    | cons r rs =>
      cases i with
      | zero =>
        simp only [List.getD_cons_zero] at h3 h4
        simp only [segWalk, h3, Bool.false_eq_true, if_false]
        rw [if_pos h4]
      | succ i =>
        simp only [List.getD_cons_succ] at h3 h4
        simp only [List.length_cons, Nat.succ_lt_succ_iff] at h1 h2
        cases hpr : isParamSeg r with
        | true =>
          simp only [segWalk, hpr, if_true]
          exact ih rs i total _ h1 h2 h3 h4
        | false =>
          simp only [segWalk, hpr, Bool.false_eq_true, if_false]
          by_cases htd : cfg.tolerance < levStr (normCase cfg o) (normCase cfg r)
          · rw [if_pos htd]
          · rw [if_neg htd]
            exact ih rs i _ _ h1 h2 h3 h4

/-- C4: during fuzzy segment matching, a single literal segment pair whose
normalized edit distance alone exceeds `config.tolerance` makes the matcher
reject the whole template (`segmentMatch` yields nothing for that template),
regardless of the distances accumulated on the other segments. -/
theorem claim_C4_per_segment_cutoff (p rp : String) (cfg : Config) (i : Nat)
    (h1 : i < (pathSegments p).length) (h2 : i < (pathSegments rp).length)
    (h3 : isParamSeg ((pathSegments rp).getD i "") = false)
    (h4 : cfg.tolerance < levStr (normCase cfg ((pathSegments p).getD i ""))
      (normCase cfg ((pathSegments rp).getD i ""))) :
    segmentMatch p cfg rp = none := by
  unfold segmentMatch
  by_cases hpr : cfg.tolerance <
      absDiff (pathSegments p).length (pathSegments rp).length
  · rw [if_pos hpr]
  · rw [if_neg hpr]
    exact segWalk_reject cfg (pathSegments p) (pathSegments rp) i 0 [] h1 h2 h3 h4

/-- Witness for C4 at a concrete input: matching `/zz/a` against the template
`/ab/:x` with tolerance 1 is rejected because the single literal pair
`zz`/`ab` has distance 2 > 1, although the parameter segment costs nothing. -/
theorem claim_C4_witness :
    segmentMatch "/zz/a" ⟨1, false, false, true⟩ "/ab/:x" = none :=
  claim_C4_per_segment_cutoff "/zz/a" "/ab/:x" ⟨1, false, false, true⟩ 0
    (by decide) (by decide) (by decide) (by decide)

/-! ### Structural lemmas about segmentation, parsing and bindings -/

theorem splitSlash_ne_nil : ∀ l : List Char, splitSlash l ≠ [] := by
  intro l
  cases l with
  | nil => simp [splitSlash]
  | cons c rest =>
    by_cases hc : c = '/'
    · subst hc
      simp [splitSlash]
    · rw [show splitSlash (c :: rest) = (match splitSlash rest with
        | [] => [[c]]
        | s :: ss => (c :: s) :: ss) from by
          cases rest <;> simp [splitSlash, hc]]
      cases splitSlash rest <;> simp

theorem splitSlash_chars : ∀ (l : List Char) (cs : List Char), cs ∈ splitSlash l →
    ∀ c ∈ cs, c ∈ l := by
  intro l
  induction l with
  | nil =>
    intro cs hcs c hc
    simp [splitSlash] at hcs
    subst hcs
    simp at hc
  | cons a rest ih =>
    intro cs hcs c hc
    by_cases ha : a = '/'
    · subst ha
      simp only [splitSlash] at hcs
      rcases List.mem_cons.mp hcs with he | hm
      · subst he; simp at hc
      · exact List.mem_cons_of_mem _ (ih cs hm c hc)
    · rw [show splitSlash (a :: rest) = (match splitSlash rest with
        | [] => [[a]]
        | s :: ss => (a :: s) :: ss) from by
          cases rest <;> simp [splitSlash, ha]] at hcs
      cases hsp : splitSlash rest with
      | nil => exact absurd hsp (splitSlash_ne_nil rest)
      | cons s ss =>
        rw [hsp] at hcs
        rcases List.mem_cons.mp hcs with he | hm
        · subst he
          rcases List.mem_cons.mp hc with he' | hm'
          · subst he'; exact List.mem_cons_self c rest
          · exact List.mem_cons_of_mem _
              (ih s (by rw [hsp]; exact List.mem_cons_self s ss) c hm')
        · exact List.mem_cons_of_mem _
            (ih cs (by rw [hsp]; exact List.mem_cons_of_mem s hm) c hc)

theorem mem_pathSegments_chars (s : String) (seg : String) (hm : seg ∈ pathSegments s) :
    ∀ c ∈ seg.data, c ∈ s.data := by
  intro c hc
  simp only [pathSegments, List.mem_map, List.mem_filter] at hm
  obtain ⟨cs, ⟨hmem, _⟩, heq⟩ := hm
  subst heq
  exact splitSlash_chars s.data cs hmem c hc

theorem isParamSeg_colon (seg : String) (h : isParamSeg seg = true) : ':' ∈ seg.data := by
  unfold isParamSeg at h
  cases hd : seg.data with
  | nil => rw [hd] at h; cases h
  | cons c cs =>
    rw [hd] at h
    by_cases hc : c = ':'
    · subst hc
      exact List.mem_cons_self ':' cs
    · exfalso
      revert h
      match c, hc with
      | c, hc =>
        intro h
        split at h
        · simp_all
        · cases h

theorem no_param_seg_of_static (r : Route) (hrp : r.hasParams = false) (seg : String)
    (hm : seg ∈ pathSegments r.path) : isParamSeg seg = false := by
  cases hps : isParamSeg seg with
  | false => rfl
  | true =>
    exfalso
    have hc := mem_pathSegments_chars r.path seg hm ':' (isParamSeg_colon seg hps)
    have : r.hasParams = true := by
      unfold Route.hasParams
      simpa using hc
    rw [this] at hrp
    cases hrp

theorem lookupParam_setParam_self : ∀ (m : List (String × String)) (k v : String),
    lookupParam (setParam m k v) k = some v := by
  intro m
  induction m with
  | nil => intro k v; simp [setParam, lookupParam]
  | cons kv rest ih =>
    intro k v
    obtain ⟨k', v'⟩ := kv
    by_cases hk : k' = k
    · subst hk
      simp [setParam, lookupParam]
    · simp only [setParam, if_neg hk, lookupParam]
      exact ih k v

theorem lookupParam_setParam_other : ∀ (m : List (String × String)) (k v k' : String),
    k' ≠ k → lookupParam (setParam m k v) k' = lookupParam m k' := by
  intro m
  induction m with
  | nil =>
    intro k v k' hne
    simp only [setParam, lookupParam]
    rw [if_neg (fun h : k = k' => hne h.symm)]
  | cons kv rest ih =>
    intro k v k' hne
    obtain ⟨k0, v0⟩ := kv
    by_cases hk : k0 = k
    · simp only [setParam, if_pos hk, lookupParam]
      rw [if_neg (fun h : k = k' => hne h.symm),
        if_neg (fun h : k0 = k' => hne (by rw [← h, hk]))]
    · simp only [setParam, if_neg hk, lookupParam]
      by_cases hk' : k0 = k'
      · rw [if_pos hk', if_pos hk']
      · rw [if_neg hk', if_neg hk']
        exact ih k v k' hne

theorem mem_setParam : ∀ (m : List (String × String)) (k v : String)
    (kv : String × String), kv ∈ setParam m k v → kv = (k, v) ∨ kv ∈ m := by
  intro m
  induction m with
  | nil =>
    intro k v kv h
    simp [setParam] at h
    exact Or.inl h
  | cons kv0 rest ih =>
    intro k v kv h
    obtain ⟨k0, v0⟩ := kv0
    by_cases hk : k0 = k
    · simp only [setParam, if_pos hk] at h
      rcases List.mem_cons.mp h with he | hm
      · exact Or.inl he
      · exact Or.inr (List.mem_cons_of_mem _ hm)
    · simp only [setParam, if_neg hk] at h
      rcases List.mem_cons.mp h with he | hm
      · exact Or.inr (by rw [he]; exact List.mem_cons_self _ _)
      · rcases ih k v kv hm with h' | h'
        · exact Or.inl h'
        · exact Or.inr (List.mem_cons_of_mem _ h')

theorem lookupParam_isSome_setParam : ∀ (m : List (String × String)) (k v k' : String),
    (lookupParam m k').isSome = true → (lookupParam (setParam m k v) k').isSome = true := by
  intro m k v k' h
  by_cases hk : k' = k
  · subst hk
    rw [lookupParam_setParam_self]
    rfl
  · rw [lookupParam_setParam_other m k v k' hk]
    exact h

theorem lookupParam_foldl_setParam : ∀ (pairs : List (String × String))
    (init : List (String × String)) (k : String),
    ((lookupParam init k).isSome = true ∨ ∃ v, (k, v) ∈ pairs) →
    (lookupParam (pairs.foldl (fun m kv => setParam m kv.1 kv.2) init) k).isSome = true := by
  intro pairs
  induction pairs with
  | nil =>
    intro init k h
    rcases h with h | ⟨v, hv⟩
    · simpa using h
    · simp at hv
  | cons kv rest ih =>
    intro init k h
    simp only [List.foldl_cons]
    apply ih
    rcases h with h | ⟨v, hv⟩
    · exact Or.inl (lookupParam_isSome_setParam init kv.1 kv.2 k h)
    · rcases List.mem_cons.mp hv with he | hm
      · left
        have hk1 : kv.1 = k := by rw [← he]
        rw [hk1, lookupParam_setParam_self]
        rfl
      · exact Or.inr ⟨v, hm⟩

theorem mem_foldl_setParam : ∀ (pairs : List (String × String))
    (init : List (String × String)) (kv : String × String),
    kv ∈ pairs.foldl (fun m p => setParam m p.1 p.2) init → kv ∈ init ∨ kv ∈ pairs := by
  intro pairs
  induction pairs with
  | nil =>
    intro init kv h
    exact Or.inl (by simpa using h)
  | cons p rest ih =>
    intro init kv h
    simp only [List.foldl_cons] at h
    rcases ih _ kv h with h' | h'
    · rcases mem_setParam init p.1 p.2 kv h' with he | hm
      · exact Or.inr (by rw [he]; exact List.mem_cons_self _ _)
      · exact Or.inl hm
    · exact Or.inr (List.mem_cons_of_mem p h')

theorem segWalk_keeps_keys (cfg : Config) : ∀ (os rs : List String) (total : Nat)
    (params : List (String × String)) (d : Nat) (ps : List (String × String)) (k : String),
    segWalk cfg os rs total params = some (d, ps) →
    (lookupParam params k).isSome = true → (lookupParam ps k).isSome = true := by
  intro os
  induction os with
  | nil =>
    intro rs total params d ps k h hk
    simp only [segWalk] at h
    cases h
    exact hk
  | cons o os ih =>
    intro rs total params d ps k h hk
    cases rs with
    | nil =>
      simp only [segWalk] at h
      cases h
      exact hk
    | cons r rs =>
      simp only [segWalk] at h
      by_cases hpr : isParamSeg r = true
      · rw [if_pos hpr] at h
        exact ih rs total _ d ps k h
          (lookupParam_isSome_setParam params (dropFirst r) o k hk)
      · rw [if_neg hpr] at h
        by_cases htd : cfg.tolerance < levStr (normCase cfg o) (normCase cfg r)
        · rw [if_pos htd] at h; cases h
        · rw [if_neg htd] at h
          exact ih rs _ params d ps k h hk

theorem segWalk_binds (cfg : Config) : ∀ (os rs : List String) (total : Nat)
    (params : List (String × String)) (d : Nat) (ps : List (String × String)) (i : Nat),
    segWalk cfg os rs total params = some (d, ps) →
    i < os.length → i < rs.length → isParamSeg (rs.getD i "") = true →
    (lookupParam ps (dropFirst (rs.getD i ""))).isSome = true := by
  intro os
  induction os with
  | nil =>
    intro rs total params d ps i h h1 h2 h3
    simp at h1
  | cons o os ih =>
    intro rs total params d ps i h h1 h2 h3
    cases rs with
    | nil => simp at h2
    | cons r rs =>
      simp only [segWalk] at h
      cases i with
      | zero =>
        simp only [List.getD_cons_zero] at h3
        rw [if_pos h3] at h
        simp only [List.getD_cons_zero]
        exact segWalk_keeps_keys cfg os rs total _ d ps _ h
          (by rw [lookupParam_setParam_self]; rfl)
      | succ i =>
        simp only [List.getD_cons_succ] at h3 ⊢
        simp only [List.length_cons, Nat.succ_lt_succ_iff] at h1 h2
        by_cases hpr : isParamSeg r = true
        · rw [if_pos hpr] at h
          exact ih rs total _ d ps i h h1 h2 h3
        · rw [if_neg hpr] at h
          by_cases htd : cfg.tolerance < levStr (normCase cfg o) (normCase cfg r)
          · rw [if_pos htd] at h; cases h
          · rw [if_neg htd] at h
            exact ih rs _ params d ps i h h1 h2 h3

theorem segWalk_entries (cfg : Config) : ∀ (os rs : List String) (total : Nat)
    (params : List (String × String)) (d : Nat) (ps : List (String × String)),
    segWalk cfg os rs total params = some (d, ps) →
    ∀ kv ∈ ps, kv ∈ params ∨ ∃ i, i < os.length ∧ i < rs.length ∧
      isParamSeg (rs.getD i "") = true ∧ dropFirst (rs.getD i "") = kv.1 ∧
      kv.2 = os.getD i "" := by
  intro os
  induction os with
  | nil =>
    intro rs total params d ps h kv hkv
    simp only [segWalk] at h
    cases h
    exact Or.inl hkv
  | cons o os ih =>
    intro rs total params d ps h kv hkv
    cases rs with
    | nil =>
      simp only [segWalk] at h
      cases h
      exact Or.inl hkv
    | cons r rs =>
      simp only [segWalk] at h
      by_cases hpr : isParamSeg r = true
      · rw [if_pos hpr] at h
        rcases ih rs total _ d ps h kv hkv with hin | ⟨i, hi1, hi2, hi3, hi4, hi5⟩
        · rcases mem_setParam params (dropFirst r) o kv hin with he | hm
          · refine Or.inr ⟨0, by simp, by simp, ?_, ?_, ?_⟩
            · simpa using hpr
            · simp only [List.getD_cons_zero]
              rw [he]
            · simp only [List.getD_cons_zero]
              rw [he]
          · exact Or.inl hm
        · exact Or.inr ⟨i + 1, by simpa using Nat.succ_lt_succ hi1,
            by simpa using Nat.succ_lt_succ hi2, by simpa using hi3,
            by simpa using hi4, by simpa using hi5⟩
      · rw [if_neg hpr] at h
        by_cases htd : cfg.tolerance < levStr (normCase cfg o) (normCase cfg r)
        · rw [if_pos htd] at h; cases h
        · rw [if_neg htd] at h
          rcases ih rs _ params d ps h kv hkv with hin | ⟨i, hi1, hi2, hi3, hi4, hi5⟩
          · exact Or.inl hin
          · exact Or.inr ⟨i + 1, by simpa using Nat.succ_lt_succ hi1,
              by simpa using Nat.succ_lt_succ hi2, by simpa using hi3,
              by simpa using hi4, by simpa using hi5⟩

theorem segWalk_lookup_preserved (cfg : Config) : ∀ (os rs : List String) (total : Nat)
    (params : List (String × String)) (d : Nat) (ps : List (String × String)) (k : String),
    (∀ j, j < os.length → j < rs.length → isParamSeg (rs.getD j "") = true →
      dropFirst (rs.getD j "") ≠ k) →
    segWalk cfg os rs total params = some (d, ps) →
    lookupParam ps k = lookupParam params k := by
  intro os
  induction os with
  | nil =>
    intro rs total params d ps k hno h
    simp only [segWalk] at h
    cases h
    rfl
  | cons o os ih =>
    intro rs total params d ps k hno h
    cases rs with
    | nil =>
      simp only [segWalk] at h
      cases h
      rfl
    | cons r rs =>
      simp only [segWalk] at h
      by_cases hpr : isParamSeg r = true
      · rw [if_pos hpr] at h
        have hk : dropFirst r ≠ k := by
          have := hno 0 (by simp) (by simp)
          simpa [hpr] using this
        rw [ih rs total _ d ps k ?_ h]
        · exact lookupParam_setParam_other params (dropFirst r) o k
            (fun he => hk (by rw [he]))
        · intro j hj1 hj2 hj3
          have := hno (j + 1) (by simpa using Nat.succ_lt_succ hj1)
            (by simpa using Nat.succ_lt_succ hj2)
          simpa using this hj3
      · rw [if_neg hpr] at h
        by_cases htd : cfg.tolerance < levStr (normCase cfg o) (normCase cfg r)
        · rw [if_pos htd] at h; cases h
        · rw [if_neg htd] at h
          refine ih rs _ params d ps k ?_ h
          intro j hj1 hj2 hj3
          have := hno (j + 1) (by simpa using Nat.succ_lt_succ hj1)
            (by simpa using Nat.succ_lt_succ hj2)
          simpa using this hj3

theorem segWalk_lookup_found (cfg : Config) : ∀ (os rs : List String) (total : Nat)
    (params : List (String × String)) (d : Nat) (ps : List (String × String)) (i : Nat),
    (∀ j1 j2, j1 < rs.length → j2 < rs.length → isParamSeg (rs.getD j1 "") = true →
      isParamSeg (rs.getD j2 "") = true →
      dropFirst (rs.getD j1 "") = dropFirst (rs.getD j2 "") → j1 = j2) →
    i < os.length → i < rs.length → isParamSeg (rs.getD i "") = true →
    segWalk cfg os rs total params = some (d, ps) →
    lookupParam ps (dropFirst (rs.getD i "")) = some (os.getD i "") := by
  intro os
  induction os with
  | nil =>
    intro rs total params d ps i hdist h1 h2 h3 h
    simp at h1
  | cons o os ih =>
    intro rs total params d ps i hdist h1 h2 h3 h
    cases rs with
    | nil => simp at h2
    | cons r rs =>
      simp only [segWalk] at h
      cases i with
      | zero =>
        simp only [List.getD_cons_zero] at h3 ⊢
        rw [if_pos h3] at h
        rw [segWalk_lookup_preserved cfg os rs total _ d ps (dropFirst r) ?_ h]
        · exact lookupParam_setParam_self params (dropFirst r) o
        · intro j hj1 hj2 hj3 heq
          have := hdist (j + 1) 0 (by simpa using Nat.succ_lt_succ hj2) (by simp)
            (by simpa using hj3) (by simpa using h3)
            (by simpa using heq)
          cases this
      | succ i =>
        simp only [List.getD_cons_succ] at h3 ⊢
        simp only [List.length_cons, Nat.succ_lt_succ_iff] at h1 h2
        have hdist' : ∀ j1 j2, j1 < rs.length → j2 < rs.length →
            isParamSeg (rs.getD j1 "") = true → isParamSeg (rs.getD j2 "") = true →
            dropFirst (rs.getD j1 "") = dropFirst (rs.getD j2 "") → j1 = j2 := by
          intro j1 j2 hj1 hj2 hp1 hp2 heq
          have := hdist (j1 + 1) (j2 + 1) (by simpa using Nat.succ_lt_succ hj1)
            (by simpa using Nat.succ_lt_succ hj2) (by simpa using hp1)
            (by simpa using hp2) (by simpa using heq)
          omega
        by_cases hpr : isParamSeg r = true
        · rw [if_pos hpr] at h
          exact ih rs total _ d ps i hdist' h1 h2 h3 h
        · rw [if_neg hpr] at h
          by_cases htd : cfg.tolerance < levStr (normCase cfg o) (normCase cfg r)
          · rw [if_pos htd] at h; cases h
          · rw [if_neg htd] at h
            exact ih rs _ params d ps i hdist' h1 h2 h3 h

theorem parseChunk_ne_nil (cs : List Char) (s : Seg) (h : parseChunk cs = some s) :
    cs ≠ [] := by
  intro he
  subst he
  simp [parseChunk] at h

theorem parseChunk_param (cs : List Char) (n : String)
    (h : parseChunk cs = some (Seg.param n)) :
    isParamSeg (String.mk cs) = true ∧ n = dropFirst (String.mk cs) := by
  cases cs with
  | nil => simp [parseChunk] at h
  | cons c cs' =>
    by_cases hc : c = ':'
    · subst hc
      simp only [parseChunk] at h
      by_cases he : cs'.isEmpty
      · rw [if_pos he] at h; cases h
      · rw [if_neg he] at h
        by_cases hw : cs'.all isWordChar
        · rw [if_pos hw] at h
          have : Seg.param (String.mk cs') = Seg.param n := Option.some_inj.mp h
          cases this
          exact ⟨rfl, rfl⟩
        · rw [if_neg hw] at h; cases h
    · exfalso
      revert h
      unfold parseChunk
      split
      · intro h; cases h
      · rename_i heq
        cases heq
        exact absurd rfl hc
      · intro h
        split at h
        · cases Option.some_inj.mp h
        · cases h

theorem parseChunk_lit (cs : List Char) (t : String)
    (h : parseChunk cs = some (Seg.lit t)) :
    isParamSeg (String.mk cs) = false ∧ t = String.mk cs ∧ cs ≠ [] := by
  cases cs with
  | nil => simp [parseChunk] at h
  | cons c cs' =>
    by_cases hc : c = ':'
    · exfalso
      subst hc
      simp only [parseChunk] at h
      by_cases he : cs'.isEmpty
      · rw [if_pos he] at h; cases h
      · rw [if_neg he] at h
        by_cases hw : cs'.all isWordChar
        · rw [if_pos hw] at h; cases h
        · rw [if_neg hw] at h; cases h
    · have hps : isParamSeg (String.mk (c :: cs')) = false := by
        unfold isParamSeg
        simp only []
        split
        · rename_i heq
          injection heq with h1 h2
          exact absurd h1 hc
        · rfl
      refine ⟨hps, ?_, by simp⟩
      revert h
      unfold parseChunk
      split
      · intro h; cases h
      · rename_i heq
        injection heq with h1 h2
        exact absurd h1 hc
      · intro h
        split at h
        · cases Option.some_inj.mp h
          rfl
        · cases h

theorem parseChunks_spec : ∀ (chunks : List (List Char)) (segs : List Seg),
    parseChunks chunks = some segs →
    chunks.length = segs.length ∧ (∀ c ∈ chunks, c ≠ []) ∧
    ∀ i, i < chunks.length →
      parseChunk (chunks.getD i []) = some (segs.getD i (Seg.lit "")) := by
  intro chunks
  induction chunks with
  | nil =>
    intro segs h
    simp only [parseChunks] at h
    cases h
    exact ⟨rfl, by simp, by simp⟩
  | cons c cs ih =>
    intro segs h
    simp only [parseChunks] at h
    cases hp : parseChunk c with
    | none => rw [hp] at h; cases h
    | some s =>
      rw [hp] at h
      cases hps : parseChunks cs with
      | none => rw [hps] at h; cases h
      | some ss =>
        rw [hps] at h
        have h' : s :: ss = segs := Option.some_inj.mp h
        subst h'
        obtain ⟨h1, h2, h3⟩ := ih ss hps
        refine ⟨by simp [h1], ?_, ?_⟩
        · intro c' hc'
          rcases List.mem_cons.mp hc' with he | hm
          · rw [he]; exact parseChunk_ne_nil c s hp
          · exact h2 c' hm
        · intro i hi
          cases i with
          | zero => simpa using hp
          | succ i =>
            simp only [List.getD_cons_succ]
            exact h3 i (by simpa using hi)

theorem parseTemplate_spec (s : String) (segs : List Seg)
    (h : parseTemplate s = some segs) :
    ∃ chunks, splitSlash s.data = [] :: chunks ∧ chunks ≠ [] ∧
      parseChunks chunks = some segs ∧
      pathSegments s = chunks.map (fun cs => String.mk cs) := by
  unfold parseTemplate at h
  cases hsp : splitSlash s.data with
  | nil => rw [hsp] at h; cases h
  | cons hd tl =>
    rw [hsp] at h
    cases hd with
    | cons a b => exact absurd h (by simp)
    | nil =>
      replace h : (if tl.isEmpty = true then none else parseChunks tl) = some segs := h
      by_cases he : tl.isEmpty
      · rw [if_pos he] at h; cases h
      · rw [if_neg he] at h
        obtain ⟨h1, h2, h3⟩ := parseChunks_spec tl segs h
        refine ⟨tl, rfl, by simpa using he, h, ?_⟩
        unfold pathSegments
        rw [hsp]
        congr 1
        rw [List.filter_cons]
        rw [if_neg (by simp)]
        exact List.filter_eq_self.mpr (fun c hc => by simpa using h2 c hc)

theorem parseChunks_lit_ne : ∀ (chunks : List (List Char)) (segs : List Seg),
    parseChunks chunks = some segs → ∀ t, Seg.lit t ∈ segs → t.data ≠ [] := by
  intro chunks
  induction chunks with
  | nil =>
    intro segs h t ht
    simp only [parseChunks] at h
    cases h
    simp at ht
  | cons c cs ih =>
    intro segs h t ht
    simp only [parseChunks] at h
    cases hp : parseChunk c with
    | none => rw [hp] at h; cases h
    | some s =>
      rw [hp] at h
      cases hps : parseChunks cs with
      | none => rw [hps] at h; cases h
      | some ss =>
        rw [hps] at h
        have h' : s :: ss = segs := Option.some_inj.mp h
        subst h'
        rcases List.mem_cons.mp ht with he | hm
        · subst he
          obtain ⟨_, ht', hcne⟩ := parseChunk_lit c t hp
          rw [ht']
          simpa using hcne
        · exact ih ss hps t hm

theorem matchBody_spec : ∀ (segs : List Seg) (body : List (List Char))
    (pairs : List (String × String)),
    (∀ t, Seg.lit t ∈ segs → t.data ≠ []) →
    matchBody segs body = some pairs →
    segs.length = body.length ∧ (∀ c ∈ body, c ≠ []) ∧
    (∀ i, i < segs.length → ∀ n, segs.getD i (Seg.lit "") = Seg.param n →
      (n, String.mk (body.getD i [])) ∈ pairs) ∧
    (∀ kv ∈ pairs, ∃ i, i < segs.length ∧ segs.getD i (Seg.lit "") = Seg.param kv.1 ∧
      kv.2 = String.mk (body.getD i [])) := by
  intro segs
  induction segs with
  | nil =>
    intro body pairs hlit h
    cases body with
    | nil =>
      simp only [matchBody] at h
      cases h
      exact ⟨rfl, by simp, by simp, by simp⟩
    | cons c cs => simp [matchBody] at h
  | cons s segs ih =>
    intro body pairs hlit h
    cases body with
    | nil =>
      exfalso
      cases s <;> simp [matchBody] at h
    | cons c cs =>
      cases s with
      | lit t =>
        simp only [matchBody] at h
        by_cases hlow : lowerStr t = lowerStr (String.mk c)
        · rw [if_pos hlow] at h
          obtain ⟨h1, h2, h3, h4⟩ := ih cs pairs
            (fun t' ht' => hlit t' (List.mem_cons_of_mem _ ht')) h
          have hcne : c ≠ [] := by
            intro hc
            subst hc
            have := congrArg (fun s => s.data.length) hlow
            simp only [lowerStr, List.length_map] at this
            exact hlit t (List.mem_cons_self _ _) (by
              cases ht : t.data with
              | nil => rfl
              | cons a b => rw [ht] at this; simp at this)
          refine ⟨by simpa using h1, ?_, ?_, ?_⟩
          · intro c' hc'
            rcases List.mem_cons.mp hc' with he | hm
            · rw [he]; exact hcne
            · exact h2 c' hm
          · intro i hi n hn
            cases i with
            | zero => simp at hn
            | succ i =>
              simp only [List.getD_cons_succ] at hn ⊢
              exact h3 i (by simpa using hi) n hn
          · intro kv hkv
            obtain ⟨i, hi1, hi2, hi3⟩ := h4 kv hkv
            exact ⟨i + 1, by simpa using Nat.succ_lt_succ hi1, by simpa using hi2,
              by simpa using hi3⟩
        · rw [if_neg hlow] at h
          cases h
      | param n =>
        simp only [matchBody] at h
        by_cases hce : c.isEmpty
        · rw [if_pos hce] at h; cases h
        · rw [if_neg hce] at h
          cases hmb : matchBody segs cs with
          | none => rw [hmb] at h; cases h
          | some pairs' =>
            rw [hmb] at h
            have h' : (n, String.mk c) :: pairs' = pairs := Option.some_inj.mp h
            subst h'
            obtain ⟨h1, h2, h3, h4⟩ := ih cs pairs'
              (fun t' ht' => hlit t' (List.mem_cons_of_mem _ ht')) hmb
            refine ⟨by simpa using h1, ?_, ?_, ?_⟩
            · intro c' hc'
              rcases List.mem_cons.mp hc' with he | hm
              · rw [he]; simpa using hce
              · exact h2 c' hm
            · intro i hi n' hn
              cases i with
              | zero =>
                simp only [List.getD_cons_zero] at hn ⊢
                injection hn with hn'
                subst hn'
                exact List.mem_cons_self _ _
              | succ i =>
                simp only [List.getD_cons_succ] at hn ⊢
                exact List.mem_cons_of_mem _ (h3 i (by simpa using hi) n' hn)
            · intro kv hkv
              rcases List.mem_cons.mp hkv with he | hm
              · subst he
                exact ⟨0, by simp, by simp, by simp⟩
              · obtain ⟨i, hi1, hi2, hi3⟩ := h4 kv hm
                exact ⟨i + 1, by simpa using Nat.succ_lt_succ hi1, by simpa using hi2,
                  by simpa using hi3⟩

theorem filter_dropTrailingEmpty (rest : List (List Char))
    (h : ∀ c ∈ dropTrailingEmpty rest, c ≠ []) :
    rest.filter (fun cs => cs ≠ []) = dropTrailingEmpty rest := by
  unfold dropTrailingEmpty at *
  cases hl : rest.getLast? with
  | none =>
    have hre : rest = [] := by
      cases rest with
      | nil => rfl
      | cons a b => simp [List.getLast?_concat] at hl
    subst hre
    rfl
  | some c =>
    cases c with
    | nil =>
      rw [hl] at h
      have hne : rest ≠ [] := by
        intro hr
        subst hr
        simp at hl
      have hlast : rest.getLast hne = [] := by
        have := List.getLast?_eq_getLast rest hne
        rw [hl] at this
        exact (Option.some_inj.mp this).symm
      conv_lhs => rw [← List.dropLast_append_getLast hne]
      rw [List.filter_append, hlast]
      rw [show List.filter (fun cs => cs ≠ []) [([] : List Char)] = [] from by simp]
      rw [List.append_nil]
      exact List.filter_eq_self.mpr (fun c hc => by simpa using h c hc)
    | cons a b =>
      rw [hl] at h
      exact List.filter_eq_self.mpr (fun c hc => by simpa using h c hc)

theorem execMatch_spec (tmpl p : String) (prms : List (String × String))
    (h : execMatch tmpl p = some prms) :
    ∃ segs body pairs,
      parseTemplate tmpl = some segs ∧
      matchBody segs body = some pairs ∧
      prms = pairs.foldl (fun m kv => setParam m kv.1 kv.2) [] ∧
      pathSegments p = body.map (fun cs => String.mk cs) ∧
      (∀ t, Seg.lit t ∈ segs → t.data ≠ []) := by
  unfold execMatch at h
  cases hpt : parseTemplate tmpl with
  | none => rw [hpt] at h; cases h
  | some segs =>
    rw [hpt] at h
    cases hsp : splitSlash p.data with
    | nil => rw [hsp] at h; cases h
    | cons hd tl =>
      rw [hsp] at h
      cases hd with
      | cons a b => exact absurd h (by simp)
      | nil =>
        replace h : (match matchBody segs (dropTrailingEmpty tl) with
          | none => none
          | some pairs => some (pairs.foldl (fun m kv => setParam m kv.1 kv.2) [])) =
            some prms := h
        cases hmb : matchBody segs (dropTrailingEmpty tl) with
        | none => rw [hmb] at h; cases h
        | some pairs =>
          rw [hmb] at h
          have hlit : ∀ t, Seg.lit t ∈ segs → t.data ≠ [] := by
            obtain ⟨chunks, _, _, hpc, _⟩ := parseTemplate_spec tmpl segs hpt
            exact parseChunks_lit_ne chunks segs hpc
          obtain ⟨_, h2, _, _⟩ := matchBody_spec segs (dropTrailingEmpty tl) pairs hlit hmb
          refine ⟨segs, dropTrailingEmpty tl, pairs, rfl, hmb,
            (Option.some_inj.mp h).symm, ?_, hlit⟩
          unfold pathSegments
          rw [hsp, List.filter_cons]
          rw [if_neg (by simp)]
          rw [filter_dropTrailingEmpty tl h2]

theorem isParamSeg_empty : isParamSeg "" = false := rfl

theorem getD_map_mk : ∀ (l : List (List Char)) (i : Nat),
    (l.map (fun cs => String.mk cs)).getD i "" = String.mk (l.getD i []) := by
  intro l
  induction l with
  | nil => intro i; cases i <;> rfl
  | cons c cs ih =>
    intro i
    cases i with
    | zero => rfl
    | succ i => simp only [List.map_cons, List.getD_cons_succ, ih i]

/-- Where an outcome of `findBestMatch` comes from: the exact parameterized
pass, the static scan, or the fuzzy parameterized scan. -/
theorem findBestMatch_provenance (p m : String) (routes : List Route) (cfg : Config)
    (o : MatchOutcome) (h : findBestMatch p routes m cfg = some o) :
    (cfg.handleParams = true ∧ findExact p (methodFilter routes m cfg) = some o) ∨
    (∃ r ∈ methodFilter routes m cfg, r.hasParams = false ∧ o = mkStatic p cfg r) ∨
    (∃ r ∈ methodFilter routes m cfg, r.hasParams = true ∧ ∃ d ps,
      segmentMatch p cfg r.path = some (d, ps) ∧ o = mkFuzzy r d ps) := by
  simp only [findBestMatch] at h
  cases hex : (if cfg.handleParams then findExact p (methodFilter routes m cfg) else none) with
  | some o' =>
    rw [hex] at h
    have h' : o' = o := Option.some_inj.mp h
    subst h'
    obtain ⟨hc, hfe⟩ := ifExact_some hex
    exact Or.inl ⟨hc, hfe⟩
  | none =>
    rw [hex] at h
    by_cases hrun : (cfg.handleParams && pastTolerance cfg
        ((methodFilter routes m cfg).foldl (staticStep p cfg) none)) = true
    · rw [if_pos hrun] at h
      cases hb : (methodFilter routes m cfg).foldl (fuzzyStep p cfg)
          ((methodFilter routes m cfg).foldl (staticStep p cfg) none) with
      | none => rw [hb] at h; exact absurd h (by simp)
      | some b =>
        rw [hb] at h
        replace h : (if b.distance ≤ cfg.tolerance then some b else none) = some o := h
        have hbo : b = o := by
          by_cases hd : b.distance ≤ cfg.tolerance
          · rw [if_pos hd] at h; exact Option.some_inj.mp h
          · rw [if_neg hd] at h; exact absurd h (by simp)
        subst hbo
        rcases fuzzyFold_mem p cfg _ _ b hb with hc | ⟨r, d, ps, hm, hrp, hsm, hmk⟩
        · rcases staticFold_mem p cfg _ none b hc with hn | ⟨r, hm, hrp, hmk⟩
          · cases hn
          · exact Or.inr (Or.inl ⟨r, hm, hrp, hmk⟩)
        · exact Or.inr (Or.inr ⟨r, hm, hrp, d, ps, hsm, hmk⟩)
    · rw [if_neg hrun] at h
      cases hb : (methodFilter routes m cfg).foldl (staticStep p cfg) none with
      | none => rw [hb] at h; exact absurd h (by simp)
      | some b =>
        rw [hb] at h
        replace h : (if b.distance ≤ cfg.tolerance then some b else none) = some o := h
        have hbo : b = o := by
          by_cases hd : b.distance ≤ cfg.tolerance
          · rw [if_pos hd] at h; exact Option.some_inj.mp h
          · rw [if_neg hd] at h; exact absurd h (by simp)
        subst hbo
        rcases staticFold_mem p cfg _ none b hb with hn | ⟨r, hm, hrp, hmk⟩
        · cases hn
        · exact Or.inr (Or.inl ⟨r, hm, hrp, hmk⟩)

theorem execMatch_binds (tmpl p : String) (prms : List (String × String)) (i : Nat)
    (h : execMatch tmpl p = some prms)
    (hpar : isParamSeg ((pathSegments tmpl).getD i "") = true) :
    (lookupParam prms (dropFirst ((pathSegments tmpl).getD i ""))).isSome = true := by
  obtain ⟨segs, body, pairs, hpt, hmb, hfold, hbody, hlit⟩ := execMatch_spec tmpl p prms h
  obtain ⟨chunks, hsp, hchne, hpc, hpseg⟩ := parseTemplate_spec tmpl segs hpt
  obtain ⟨hlen, hcne, hparse⟩ := parseChunks_spec chunks segs hpc
  rw [hpseg, getD_map_mk] at hpar ⊢
  by_cases hi : i < chunks.length
  · have hchunk := hparse i hi
    cases hs : segs.getD i (Seg.lit "") with
    | lit t =>
      rw [hs] at hchunk
      obtain ⟨hps, _, _⟩ := parseChunk_lit _ t hchunk
      rw [hps] at hpar
      cases hpar
    | param n =>
      rw [hs] at hchunk
      obtain ⟨_, hname⟩ := parseChunk_param _ n hchunk
      obtain ⟨hlen2, _, h3, _⟩ := matchBody_spec segs body pairs hlit hmb
      have hmem := h3 i (by omega) n hs
      rw [hfold, ← hname]
      exact lookupParam_foldl_setParam pairs [] n (Or.inr ⟨_, hmem⟩)
  · rw [List.getD_eq_default _ _ (by omega)] at hpar
    exact absurd hpar (by decide)

/-- C3 counterexample: with catalog `{GET /users/:id}` and default config,
resolving `/users` (fewer segments than the template) yields an outcome whose
matched template contains the Parameter segment `:id` while its
parameterBindings are empty — the invariant as stated fails. -/
theorem claim_C3_counterexample :
    findBestMatch "/users" [⟨"/users/:id", "get"⟩] "get" ⟨2, false, false, true⟩ =
      some ⟨"/users/:id", "get", 1, true, some "/users/", []⟩ ∧
    isParamSeg ((pathSegments "/users/:id").getD 1 "") = true := by
  constructor
  · decide
  · decide

/-- C3 (amended): every Parameter segment of the matched template at a
position within the requested path's segment count has an entry in the
outcome's parameterBindings; parameter segments beyond the requested path's
segments are left unbound by the fuzzy scan. -/
theorem claim_C3_amended_bindings (p m : String) (routes : List Route) (cfg : Config)
    (o : MatchOutcome) (h : findBestMatch p routes m cfg = some o) (i : Nat)
    (hi : i < (pathSegments p).length)
    (hpar : isParamSeg ((pathSegments o.path).getD i "") = true) :
    (lookupParam o.params (dropFirst ((pathSegments o.path).getD i ""))).isSome = true := by
  rcases findBestMatch_provenance p m routes cfg o h with ⟨hc, hfe⟩ |
    ⟨r, hm, hrp, hmk⟩ | ⟨r, hm, hrp, d, ps, hsm, hmk⟩
  · obtain ⟨_, _, _, r, hr, hrp, hpath, hmeth, hex⟩ := findExact_spec _ p o hfe
    rw [hpath] at hpar ⊢
    exact execMatch_binds r.path p o.params i hex hpar
  · exfalso
    subst hmk
    simp only [mkStatic] at hpar
    by_cases hlen : i < (pathSegments r.path).length
    · have hmem : (pathSegments r.path).getD i "" ∈ pathSegments r.path := by
        rw [List.getD_eq_getElem _ _ hlen]
        exact List.getElem_mem hlen
      have := no_param_seg_of_static r hrp _ hmem
      rw [this] at hpar
      cases hpar
    · rw [List.getD_eq_default _ _ (by omega)] at hpar
      exact absurd hpar (by decide)
  · subst hmk
    simp only [mkFuzzy] at hpar ⊢
    unfold segmentMatch at hsm
    by_cases hpr : cfg.tolerance <
        absDiff (pathSegments p).length (pathSegments r.path).length
    · rw [if_pos hpr] at hsm; cases hsm
    · rw [if_neg hpr] at hsm
      by_cases hlen : i < (pathSegments r.path).length
      · exact segWalk_binds cfg _ _ 0 [] d ps i hsm hi hlen hpar
      · rw [List.getD_eq_default _ _ (by omega)] at hpar
        exact absurd hpar (by decide)

/-- Witness for the amended C3: resolving `/u/5` against `{GET /u/:id}` binds
the parameter `id` at position 1. -/
theorem claim_C3_witness :
    (lookupParam
      ((⟨"/u/:id", "get", 0, true, some "/u/5", [("id", "5")]⟩ : MatchOutcome).params)
      (dropFirst ((pathSegments
        (⟨"/u/:id", "get", 0, true, some "/u/5", [("id", "5")]⟩ : MatchOutcome).path).getD
        1 ""))).isSome = true :=
  claim_C3_amended_bindings "/u/5" "get" [⟨"/u/:id", "get"⟩] ⟨2, false, false, true⟩
    ⟨"/u/:id", "get", 0, true, some "/u/5", [("id", "5")]⟩ (by decide) 1
    (by decide) (by decide)

/-- C6: the code contradicts the claim (and its own documentation of
`caseSensitive`). The exact structural match is performed by a regexp built by
`pathToRegexp(route.path, route.keys)` with default options (line 158), whose
flags are case-insensitive regardless of `config.caseSensitive`; so with
`caseSensitive: true` and tolerance 0, the request `/users/123` still
exact-matches the template `/Users/:id` with distance 0, although its literal
segment differs from the template's in letter case. -/
theorem claim_C6_code_bug_case_insensitive_exact :
    findBestMatch "/users/123" [⟨"/Users/:id", "get"⟩] "get" ⟨0, true, false, true⟩ =
      some ⟨"/Users/:id", "get", 0, true, some "/users/123", [("id", "123")]⟩ ∧
    normCase ⟨0, true, false, true⟩ "users" ≠ normCase ⟨0, true, false, true⟩ "Users" := by
  constructor
  · decide
  · decide

/-- C8 counterexample: an empty requested path is split into zero segments
(`"".split("/").filter(Boolean)` is empty, line 251), not one empty segment:
against the template `/ab/:x` with tolerance 2 the code accumulates one
missing-segment unit per template segment (distance 2), while the
single-empty-segment reading would give distance 3
(`lev "" "ab" = 2` for the first segment plus 1 missing). -/
theorem claim_C8_counterexample :
    pathSegments "" = [] ∧
    segmentMatch "" ⟨2, false, false, true⟩ "/ab/:x" = some (2, []) ∧
    segWalk ⟨2, false, false, true⟩ [""] (pathSegments "/ab/:x") 0 [] = some (3, []) := by
  refine ⟨by decide, by decide, by decide⟩

/-- C8 (amended): an empty requested path contributes zero segments to the
fuzzy matcher, so each template segment counts as one missing unit: when the
template's segment count is within tolerance, the fuzzy distance is exactly
that segment count, with no bindings. -/
theorem claim_C8_amended_empty_path (cfg : Config) (rp : String)
    (h : (pathSegments rp).length ≤ cfg.tolerance) :
    pathSegments "" = [] ∧
    segmentMatch "" cfg rp = some ((pathSegments rp).length, []) := by
  refine ⟨rfl, ?_⟩
  unfold segmentMatch
  rw [if_neg ?_]
  · rw [show pathSegments "" = [] from rfl]
    simp only [segWalk, Nat.zero_add]
  · rw [show pathSegments "" = [] from rfl]
    simp only [List.length_nil, absDiff]
    omega

/-- Witness for the amended C8: the empty path against `/ab/:x` at tolerance 2
yields fuzzy distance 2 with no bindings. -/
theorem claim_C8_witness :
    pathSegments "" = [] ∧
    segmentMatch "" ⟨2, false, false, true⟩ "/ab/:x" =
      some ((pathSegments "/ab/:x").length, []) :=
  claim_C8_amended_empty_path ⟨2, false, false, true⟩ "/ab/:x" (by decide)

theorem filter_swap (l : List Route) (f g : Route → Bool) :
    (l.filter f).filter g = (l.filter g).filter f := by
  rw [List.filter_filter, List.filter_filter]
  exact List.filter_congr (fun a _ => by rw [Bool.and_comm])

theorem methodFilter_param_only (routes : List Route) (m : String) (cfg : Config) :
    methodFilter (routes.filter (fun r => r.hasParams)) m cfg =
      (methodFilter routes m cfg).filter (fun r => r.hasParams) := by
  unfold methodFilter
  exact filter_swap routes (fun r => r.hasParams)
    (fun r => cfg.applyToAllMethods || r.method == m)

/-- C2: when `config.handleParams` is on and some parameterized template in
the method-filtered catalog structurally matches the requested path exactly,
`findBestMatch` returns an exact outcome — distance 0, parameters extracted by
the template's regexp from the request — before any static scanning: removing
every static route from the catalog leaves the result unchanged, so no static
route can shadow such a match. -/
theorem claim_C2_exact_param_short_circuit (p m : String) (routes : List Route)
    (cfg : Config) (hhp : cfg.handleParams = true) (r : Route)
    (hr : r ∈ methodFilter routes m cfg) (hrp : r.hasParams = true)
    (hex : (execMatch r.path p).isSome = true) :
    ∃ o, findBestMatch p routes m cfg = some o ∧ o.distance = 0 ∧
      o.hasParams = true ∧ o.matchedUrl = some p ∧
      execMatch o.path p = some o.params ∧
      findBestMatch p (routes.filter (fun r' => r'.hasParams)) m cfg = some o := by
  have hsome := findExact_isSome (methodFilter routes m cfg) p r hr hrp hex
  cases hfe : findExact p (methodFilter routes m cfg) with
  | none => rw [hfe] at hsome; cases hsome
  | some o =>
    obtain ⟨h1, h2, h3, r', hr', hrp', hpath, hmeth, hexec⟩ :=
      findExact_spec (methodFilter routes m cfg) p o hfe
    refine ⟨o, ?_, h1, h2, h3, by rw [hpath]; exact hexec, ?_⟩
    · simp only [findBestMatch, hhp, if_true, hfe]
    · simp only [findBestMatch, hhp, if_true, methodFilter_param_only]
      rw [findExact_skips_static, hfe]

/-- Witness for C2 at a concrete input: the catalog `{GET /a, GET /u/:id}`
resolves `/u/5` through the exact parameterized pass. -/
theorem claim_C2_witness :
    (findBestMatch "/u/5" [⟨"/a", "get"⟩, ⟨"/u/:id", "get"⟩] "get"
      ⟨2, false, false, true⟩).isSome = true := by
  obtain ⟨o, h1, _⟩ := claim_C2_exact_param_short_circuit "/u/5" "get"
    [⟨"/a", "get"⟩, ⟨"/u/:id", "get"⟩] ⟨2, false, false, true⟩ (by decide)
    ⟨"/u/:id", "get"⟩ (by decide) (by decide) (by decide)
  rw [h1]
  rfl

/-- C5: candidate selection is deterministic with first-wins tie-breaking.
First conjunct: the static scan's result is the first catalog entry attaining
the minimum full-path distance — every earlier static entry is strictly worse
and every later one no better (so later equal-distance templates do not
replace it). Second conjunct: when the exact pass misses and the static scan
has a candidate within tolerance, the fuzzy parameterized scan does not run
and that static candidate is the result. Third conjunct: a fuzzy result
replaces the tracked best only with strictly smaller distance, so the
incumbent (in particular a static candidate) is preferred at equal
distance. -/
theorem claim_C5_first_wins_tie_break (p m : String) (routes : List Route)
    (cfg : Config) :
    (∀ b, (methodFilter routes m cfg).foldl (staticStep p cfg) none = some b →
      ∃ l1 r l2, methodFilter routes m cfg = l1 ++ r :: l2 ∧ r.hasParams = false ∧
        b = mkStatic p cfg r ∧
        (∀ r' ∈ l1, r'.hasParams = false → staticDist p cfg r < staticDist p cfg r') ∧
        (∀ r' ∈ l2, r'.hasParams = false → staticDist p cfg r ≤ staticDist p cfg r')) ∧
    (∀ b, (if cfg.handleParams then findExact p (methodFilter routes m cfg) else none) =
        none →
      (methodFilter routes m cfg).foldl (staticStep p cfg) none = some b →
      b.distance ≤ cfg.tolerance →
      findBestMatch p routes m cfg = some b) ∧
    (∀ c b, (methodFilter routes m cfg).foldl (fuzzyStep p cfg) (some c) = some b →
      b = c ∨ b.distance < c.distance) := by
  refine ⟨?_, ?_, ?_⟩
  · intro b hb
    rcases staticFold_first p cfg (methodFilter routes m cfg) none b hb with
      ⟨hc, _⟩ | ⟨l1, r, l2, hsplit, hrp, hmk, _, h1, h2⟩
    · cases hc
    · exact ⟨l1, r, l2, hsplit, hrp, hmk, h1, h2⟩
  · intro b hex hstatic hd
    simp only [findBestMatch]
    rw [hex, hstatic]
    have hpt : pastTolerance cfg (some b) = false := by
      simp only [pastTolerance, decide_eq_false_iff_not]
      omega
    rw [hpt]
    rw [show (cfg.handleParams && false) = false from Bool.and_false _]
    simp only [Bool.false_eq_true, if_false, hstatic]
    rw [if_pos hd]
  · intro c b hb
    exact fuzzyFold_strict p cfg (methodFilter routes m cfg) c b hb

/-- Witness for C5 at a concrete input: with `{GET /ab, GET /ax/:k}` (static
route exactly matching), the static candidate within tolerance is returned and
the fuzzy scan does not intervene. -/
theorem claim_C5_witness :
    findBestMatch "/ab" [⟨"/ab", "get"⟩, ⟨"/ax/:k", "get"⟩] "get"
      ⟨2, false, false, true⟩ = some (mkStatic "/ab" ⟨2, false, false, true⟩
        ⟨"/ab", "get"⟩) :=
  (claim_C5_first_wins_tie_break "/ab" "get" [⟨"/ab", "get"⟩, ⟨"/ax/:k", "get"⟩]
    ⟨2, false, false, true⟩).2.1 (mkStatic "/ab" ⟨2, false, false, true⟩ ⟨"/ab", "get"⟩)
    (by decide) (by decide) (by decide)

/-- A catalog entry that `findBestMatch` can accept for the given request:
an exact parameterized match, a static route within tolerance, or a
parameterized route whose fuzzy segment match is within tolerance. -/
def acceptable (p : String) (cfg : Config) (r : Route) : Prop :=
  (cfg.handleParams = true ∧ r.hasParams = true ∧ (execMatch r.path p).isSome = true) ∨
  (r.hasParams = false ∧ staticDist p cfg r ≤ cfg.tolerance) ∨
  (cfg.handleParams = true ∧ r.hasParams = true ∧
    ∃ d ps, segmentMatch p cfg r.path = some (d, ps) ∧ d ≤ cfg.tolerance)

theorem isSome_of_acceptable (p m : String) (routes : List Route) (cfg : Config)
    (r : Route) (hr : r ∈ methodFilter routes m cfg) (hacc : acceptable p cfg r) :
    (findBestMatch p routes m cfg).isSome = true := by
  simp only [findBestMatch]
  rcases hacc with ⟨hhp, hrp, hex⟩ | ⟨hrp, hd⟩ | ⟨hhp, hrp, d, ps, hsm, hd⟩
  · have hsome := findExact_isSome (methodFilter routes m cfg) p r hr hrp hex
    cases hfe : findExact p (methodFilter routes m cfg) with
    | none => rw [hfe] at hsome; cases hsome
    | some o =>
      simp only [hhp, if_true, hfe]
      rfl
  · have hsome : ∃ b, (methodFilter routes m cfg).foldl (staticStep p cfg) none =
        some b := by
      cases hst : (methodFilter routes m cfg).foldl (staticStep p cfg) none with
      | none =>
        have := ((staticFold_none_iff p cfg _ none).mp hst).2 r hr
        rw [this] at hrp
        cases hrp
      | some b => exact ⟨b, rfl⟩
    obtain ⟨b, hst⟩ := hsome
    have hble : b.distance ≤ cfg.tolerance :=
      le_trans ((staticFold_min p cfg _ none b hst).2 r hr hrp) hd
    cases hex0 : (if cfg.handleParams then findExact p (methodFilter routes m cfg)
        else none) with
    | some o =>
      simp only [hex0]
      rfl
    | none =>
      simp only [hex0]
      by_cases hrun : (cfg.handleParams && pastTolerance cfg
          ((methodFilter routes m cfg).foldl (staticStep p cfg) none)) = true
      · rw [if_pos hrun]
        cases hfz : (methodFilter routes m cfg).foldl (fuzzyStep p cfg)
            ((methodFilter routes m cfg).foldl (staticStep p cfg) none) with
        | none =>
          exfalso
          have := ((fuzzyFold_none_iff p cfg _ _).mp hfz).1
          rw [hst] at this
          cases this
        | some b' =>
          rw [hst] at hfz
          have hble' : b'.distance ≤ b.distance :=
            (fuzzyFold_min p cfg _ _ b' hfz).1 b rfl
          show (if b'.distance ≤ cfg.tolerance then some b' else none).isSome = true
          rw [if_pos (le_trans hble' hble)]
          rfl
      · rw [if_neg hrun, hst]
        show (if b.distance ≤ cfg.tolerance then some b else none).isSome = true
        rw [if_pos hble]
        rfl
  · cases hex0 : (if cfg.handleParams then findExact p (methodFilter routes m cfg)
        else none) with
    | some o =>
      simp only [hex0]
      rfl
    | none =>
      simp only [hex0]
      by_cases hrun : (cfg.handleParams && pastTolerance cfg
          ((methodFilter routes m cfg).foldl (staticStep p cfg) none)) = true
      · rw [if_pos hrun]
        cases hfz : (methodFilter routes m cfg).foldl (fuzzyStep p cfg)
            ((methodFilter routes m cfg).foldl (staticStep p cfg) none) with
        | none =>
          exfalso
          have := ((fuzzyFold_none_iff p cfg _ _).mp hfz).2 r hr hrp
          rw [hsm] at this
          cases this
        | some b' =>
          have hble' : b'.distance ≤ d :=
            (fuzzyFold_min p cfg _ _ b' hfz).2 r hr hrp d ps hsm
          show (if b'.distance ≤ cfg.tolerance then some b' else none).isSome = true
          rw [if_pos (le_trans hble' hd)]
          rfl
      · rw [if_neg hrun]
        cases hst : (methodFilter routes m cfg).foldl (staticStep p cfg) none with
        | none =>
          exfalso
          apply hrun
          rw [hhp, hst]
          rfl
        | some b =>
          rw [hhp, hst] at hrun
          have hble : b.distance ≤ cfg.tolerance := by
            simp only [Bool.true_and, pastTolerance, decide_eq_true_eq] at hrun
            omega
          show (if b.distance ≤ cfg.tolerance then some b else none).isSome = true
          rw [if_pos hble]
          rfl

/-- C9: `findBestMatch` is a total function into an optional outcome, and its
only failure mode is the empty result: it returns nothing exactly when no
method-filtered catalog entry is acceptable — no exact parameterized match, no
static route within tolerance, and no parameterized route whose fuzzy segment
distance is within tolerance. In particular an empty catalog, a malformed or
empty path, or tolerance-exceeded candidates all produce the same
indistinguishable `none`. -/
theorem claim_C9_none_iff_no_acceptable (p m : String) (routes : List Route)
    (cfg : Config) :
    findBestMatch p routes m cfg = none ↔
      ∀ r ∈ methodFilter routes m cfg, ¬ acceptable p cfg r := by
  constructor
  · intro hnone r hr hacc
    have := isSome_of_acceptable p m routes cfg r hr hacc
    rw [hnone] at this
    cases this
  · intro hno
    cases hres : findBestMatch p routes m cfg with
    | none => rfl
    | some o =>
      exfalso
      have hdist : o.distance ≤ cfg.tolerance :=
        findBestMatch_le_tolerance p m routes cfg o hres
      rcases findBestMatch_provenance p m routes cfg o hres with ⟨hhp, hfe⟩ |
        ⟨r, hr, hrp, hmk⟩ | ⟨r, hr, hrp, d, ps, hsm, hmk⟩
      · obtain ⟨_, _, _, r, hr, hrp, _, _, hexec⟩ := findExact_spec _ p o hfe
        exact hno r hr (Or.inl ⟨hhp, hrp, by rw [hexec]; rfl⟩)
      · subst hmk
        rw [mkStatic_distance] at hdist
        exact hno r hr (Or.inr (Or.inl ⟨hrp, hdist⟩))
      · have hhp : cfg.handleParams = true := by
          cases hhp : cfg.handleParams with
          | true => rfl
          | false =>
            exfalso
            simp only [findBestMatch, hhp] at hres
            replace hres :
                (match (methodFilter routes m cfg).foldl (staticStep p cfg) none with
                  | some b => if b.distance ≤ cfg.tolerance then some b else none
                  | none => none) = some o := hres
            cases hst : (methodFilter routes m cfg).foldl (staticStep p cfg) none with
            | none =>
              rw [hst] at hres
              exact absurd hres (by simp)
            | some b =>
              rw [hst] at hres
              replace hres : (if b.distance ≤ cfg.tolerance then some b else none) =
                  some o := hres
              by_cases hd : b.distance ≤ cfg.tolerance
              · rw [if_pos hd] at hres
                have hb : b = o := Option.some_inj.mp hres
                subst hb
                rcases staticFold_mem p cfg _ none b hst with hn | ⟨r', _, hrp', hmk'⟩
                · cases hn
                · subst hmk'
                  simp only [mkStatic, mkFuzzy, MatchOutcome.mk.injEq] at hmk
                  exact absurd hmk.2.2.2.1 (by simp)
              · rw [if_neg hd] at hres
                exact absurd hres (by simp)
        subst hmk
        rw [mkFuzzy_distance] at hdist
        exact hno r hr (Or.inr (Or.inr ⟨hhp, hrp, d, ps, hsm, hdist⟩))

/-- C10: in every outcome produced by the fuzzy parameterized scan, each bound
parameter value is exactly the raw requested segment at that parameter's
position (no case normalization, even when `caseSensitive` is false), and —
when the template's parameter names are pairwise distinct — the reconstructed
matched URL splices those raw requested values at the parameter positions
between the template's literal segments taken verbatim in their registered
case (with an empty string for a parameter beyond the requested segments). -/
theorem claim_C10_fuzzy_bindings_verbatim (p : String) (cfg : Config) (r : Route)
    (cur : Option MatchOutcome) (d : Nat) (ps : List (String × String))
    (hrp : r.hasParams = true)
    (hsm : segmentMatch p cfg r.path = some (d, ps))
    (hbb : beatsBest cur d = true)
    (hdist : ∀ j1 j2, j1 < (pathSegments r.path).length →
      j2 < (pathSegments r.path).length →
      isParamSeg ((pathSegments r.path).getD j1 "") = true →
      isParamSeg ((pathSegments r.path).getD j2 "") = true →
      dropFirst ((pathSegments r.path).getD j1 "") =
        dropFirst ((pathSegments r.path).getD j2 "") → j1 = j2) :
    fuzzyStep p cfg cur r = some (mkFuzzy r d ps) ∧
    (∀ kv ∈ ps, ∃ i, i < (pathSegments p).length ∧
      i < (pathSegments r.path).length ∧
      isParamSeg ((pathSegments r.path).getD i "") = true ∧
      dropFirst ((pathSegments r.path).getD i "") = kv.1 ∧
      kv.2 = (pathSegments p).getD i "") ∧
    reconstruct (pathSegments r.path) ps =
      String.mk ('/' :: (joinSlash ((List.range (pathSegments r.path).length).map
        (fun i => if isParamSeg ((pathSegments r.path).getD i "") = true then
            (if i < (pathSegments p).length then (pathSegments p).getD i "" else "")
          else (pathSegments r.path).getD i ""))).data) := by
  have hwalk : segWalk cfg (pathSegments p) (pathSegments r.path) 0 [] = some (d, ps) := by
    unfold segmentMatch at hsm
    by_cases hpr : cfg.tolerance <
        absDiff (pathSegments p).length (pathSegments r.path).length
    · rw [if_pos hpr] at hsm; cases hsm
    · rw [if_neg hpr] at hsm; exact hsm
  refine ⟨fuzzyStep_won p cfg cur r d ps hrp hsm hbb, ?_, ?_⟩
  · intro kv hkv
    rcases segWalk_entries cfg (pathSegments p) (pathSegments r.path) 0 [] d ps hwalk
        kv hkv with hin | ⟨i, hi1, hi2, hi3, hi4, hi5⟩
    · simp at hin
    · exact ⟨i, hi1, hi2, hi3, hi4, hi5⟩
  · unfold reconstruct
    have hmap : (pathSegments r.path).map (fun s =>
        if isParamSeg s then (lookupParam ps (dropFirst s)).getD "" else s) =
        (List.range (pathSegments r.path).length).map
          (fun i => if isParamSeg ((pathSegments r.path).getD i "") = true then
            (if i < (pathSegments p).length then (pathSegments p).getD i "" else "")
          else (pathSegments r.path).getD i "") := by
      apply List.ext_getElem
      · simp
      · intro i h1 h2
        simp only [List.getElem_map, List.getElem_range]
        have hib : i < (pathSegments r.path).length := by simpa using h1
        have hgd : (pathSegments r.path).getD i "" = (pathSegments r.path)[i] :=
          List.getD_eq_getElem _ _ hib
        rw [← hgd]
        by_cases hp : isParamSeg ((pathSegments r.path).getD i "") = true
        · rw [if_pos hp, if_pos hp]
          by_cases hlen : i < (pathSegments p).length
          · rw [if_pos hlen]
            rw [segWalk_lookup_found cfg (pathSegments p) (pathSegments r.path) 0 []
              d ps i hdist hlen hib hp hwalk]
            rfl
          · rw [if_neg hlen]
            rw [segWalk_lookup_preserved cfg (pathSegments p) (pathSegments r.path) 0 []
              d ps (dropFirst ((pathSegments r.path).getD i "")) ?_ hwalk]
            · rfl
            · intro j hj1 hj2 hj3 heq
              have := hdist j i hj2 hib hj3 hp heq
              omega
        · rw [if_neg hp, if_neg hp]
    rw [hmap]

/-- Witness for C10 at a concrete input: matching `/usr/7` against
`/use/:id` (tolerance 2) binds `id` to the raw segment `7` and wins the
fuzzy step. -/
theorem claim_C10_witness :
    fuzzyStep "/usr/7" ⟨2, false, false, true⟩ none ⟨"/use/:id", "get"⟩ =
      some (mkFuzzy ⟨"/use/:id", "get"⟩ 1 [("id", "7")]) :=
  (claim_C10_fuzzy_bindings_verbatim "/usr/7" ⟨2, false, false, true⟩
    ⟨"/use/:id", "get"⟩ none 1 [("id", "7")] (by decide) (by decide) (by decide)
    (by
      intro j1 j2 h1 h2 hp1 hp2 heq
      have hb1 : j1 < 2 := by simpa using h1
      have hb2 : j2 < 2 := by simpa using h2
      interval_cases j1 <;> interval_cases j2 <;> revert hp1 hp2 heq <;> decide)).1

/-- Witness for C7 at concrete strings: symmetry of the matcher's edit
distance between `ab` and `ba`. -/
theorem claim_C7_witness : levStr "ab" "ba" = levStr "ba" "ab" :=
  (claim_C7_levStr_metric "ab" "ba" "bb").2.1

/-- Witness for C9 at a concrete input: with tolerance 0 and catalog
`{GET /about}`, the request `/q` has no acceptable candidate and resolves to
nothing. -/
theorem claim_C9_witness :
    findBestMatch "/q" [⟨"/about", "get"⟩] "get" ⟨0, false, false, true⟩ = none := by
  apply (claim_C9_none_iff_no_acceptable "/q" "get" [⟨"/about", "get"⟩]
    ⟨0, false, false, true⟩).mpr
  intro r hr hacc
  have hre : r = ⟨"/about", "get"⟩ := by simpa [methodFilter] using hr
  subst hre
  rcases hacc with ⟨_, hrp, _⟩ | ⟨_, hd⟩ | ⟨_, hrp, _⟩
  · exact absurd hrp (by decide)
  · exact absurd hd (by decide)
  · exact absurd hrp (by decide)
